import Mathlib

/-!
Shallow embedding of the FSAL_MEM in-memory filesystem object store from
src/FSAL/FSAL_MEM/mem_handle.c (nfs-ganesha).

Modelling conventions:
* The object arena doubles as the export object list (`mfe_objs`): objects
  are appended at creation (glist_add_tail in _mem_alloc_handle) and removed
  when their memory is freed, and handle resolution (mem_create_handle)
  scans it in that order.
* A directory's two AVL trees index the same child set, keyed by name and by
  insertion index; we model that set as the list of child ids stored on the
  directory (`children`), with ordered traversal obtained by sorting on the
  relevant key of the child objects.  `inavl` mirrors the C flag of the
  same name.
* Machine integers are Nat with explicit `% 2^w` reductions where the code
  stores into a fixed-width field; byte buffers are lists of byte values;
  timestamps are a single Nat (nanoseconds), and operations that call
  `now()` take the current time `t` as an argument.
* Fallible operations return their status explicitly; C paths that
  dereference an invalid pointer are modelled as `Option` results where
  `none` marks the undefined behaviour.
* External helpers that this file uses but that are not part of this
  repository's source (CityHash64, the share-counter and verifier helpers
  from fsal_commonlib/fsal.h, protocol constants) are modelled from the
  spec and marked `Modelled from the spec:` in their doc comments.
-/

namespace MemFSAL

/-- Object types (object_file_type_t), restricted to the cases this module
handles. -/
inductive FType
  | directory
  | regular
  | symlink
  | socket
  | character
  | block
  | fifo
deriving DecidableEq

/-- Open flags (fsal_openflags_t), as the three bits this module reads:
FSAL_O_READ, FSAL_O_WRITE, FSAL_O_TRUNC.  FSAL_O_CLOSED is the all-false
value. -/
structure OpenFlags where
  read : Bool := false
  write : Bool := false
  trunc : Bool := false
deriving DecidableEq

/-- FSAL_O_CLOSED: no flag set. -/
def FSAL_O_CLOSED : OpenFlags := {}

/-- FSAL_O_READ as a flag value. -/
def FSAL_O_READ : OpenFlags := { read := true }

/-- FSAL_O_WRITE as a flag value. -/
def FSAL_O_WRITE : OpenFlags := { write := true }

/-- The assignment pair `my_fd->openflags = openflags; if (openflags &
FSAL_O_WRITE) my_fd->openflags |= FSAL_O_READ;` — write implies read. -/
def withImpliedRead (fl : OpenFlags) : OpenFlags :=
  if fl.write then { fl with read := true } else fl

/-- A file descriptor record (struct mem_fd): current open flags and a file
offset. -/
structure Fd where
  openflags : OpenFlags := FSAL_O_CLOSED
  offset : Nat := 0
deriving DecidableEq

/-- Modelled from the spec: the share-reservation counters kept per regular
file (struct fsal_share, maintained by the fsal_commonlib helpers which are
outside this repository): how many current openers hold read access, write
access, deny-read and deny-write. -/
structure Share where
  access_read : Nat := 0
  access_write : Nat := 0
  deny_read : Nat := 0
  deny_write : Nat := 0
deriving DecidableEq

/-- Modelled from the spec: check_share_conflict — a requested access mode
conflicts with the aggregate deny counters of the other openers; bypass
suppresses non-mandatory conflicts, and as this store implements no
mandatory deny, bypass suppresses every conflict.  Returns true when the
open must fail with a share conflict. -/
def check_share_conflict (sh : Share) (want : OpenFlags) (bypass : Bool) : Bool :=
  !bypass && ((want.read && sh.deny_read > 0) || (want.write && sh.deny_write > 0))

/-- Modelled from the spec: update_share_counters — atomically swap this
descriptor's counter contribution from the old mode to the new mode. -/
def update_share_counters (sh : Share) (oldf newf : OpenFlags) : Share :=
  { sh with
    access_read := sh.access_read - (if oldf.read then 1 else 0) +
      (if newf.read then 1 else 0),
    access_write := sh.access_write - (if oldf.write then 1 else 0) +
      (if newf.write then 1 else 0) }

/-- Modelled from the spec: open_correct (fsal.h) — a descriptor may serve
an I/O request only if it is currently open for the matching access mode
(read access for read, write access for write). -/
def open_correct (cur want : OpenFlags) : Bool :=
  (!want.read || cur.read) && (!want.write || cur.write)

/-- The POSIX-like attribute set this module maintains (struct attrlist
fields it touches).  Timestamps are Nat nanosecond values, so
timespec_to_nsecs is the identity here. -/
structure Attrs where
  mode : Nat := 0
  owner : Nat := 0
  group : Nat := 0
  filesize : Nat := 0
  spaceused : Nat := 0
  numlinks : Nat := 0
  atime : Nat := 0
  mtime : Nat := 0
  ctime : Nat := 0
  chgtime : Nat := 0
  change : Nat := 0
deriving DecidableEq

/-- A caller-supplied attribute set together with its valid_mask bits
(struct attrlist used as input; `has_x` models `valid_mask & ATTR_X`). -/
structure SetAttrs where
  has_mode : Bool := false
  mode : Nat := 0
  has_owner : Bool := false
  owner : Nat := 0
  has_group : Bool := false
  group : Nat := 0
  has_size : Bool := false
  filesize : Nat := 0
  has_atime : Bool := false
  atime : Nat := 0
  has_mtime : Bool := false
  mtime : Nat := 0
  has_spaceused : Bool := false
  spaceused : Nat := 0
deriving DecidableEq

/-- valid_mask != 0 for the fields modelled here. -/
def SetAttrs.maskNonzero (a : SetAttrs) : Bool :=
  a.has_mode || a.has_owner || a.has_group || a.has_size || a.has_atime ||
    a.has_mtime || a.has_spaceused

/-- fsal_create_mode. `FSAL_EXCLUSIVE` and above are the exclusive modes. -/
inductive CreateMode
  | no_create
  | unchecked
  | guarded
  | exclusive
  | exclusive_41
  | exclusive_9p
deriving DecidableEq

/-- createmode >= FSAL_EXCLUSIVE. -/
def CreateMode.isExclusive : CreateMode → Bool
  | .exclusive | .exclusive_41 | .exclusive_9p => true
  | _ => false

/-- The FSAL status codes this module returns (fsal_errors_t). -/
inductive Err
  | noent
  | exist
  | notdir
  | notempty
  | fileOpen
  | shareDenied
  | stale
  | toosmall
  | notsupp
  | inval
  | nomem
  | badhandle
  | notOpened
  | faultSrv
deriving DecidableEq

instance {ε α : Type} [DecidableEq ε] [DecidableEq α] : DecidableEq (Except ε α) := fun x y =>
  match x, y with
  | .ok a, .ok b =>
    if h : a = b then .isTrue (by rw [h]) else .isFalse (by intro hh; cases hh; exact h rfl)
  | .error a, .error b =>
    if h : a = b then .isTrue (by rw [h]) else .isFalse (by intro hh; cases hh; exact h rfl)
  | .ok _, .error _ => .isFalse (by intro hh; cases hh)
  | .error _, .ok _ => .isFalse (by intro hh; cases hh)

/-- Modelled from the spec: the protocol constants and external functions
this module reads but does not define — the fixed wire-handle envelope size
(V4_FH_OPAQUE_SIZE), the 64-bit content hash of a path (CityHash64), and
the fixed per-file data capacity (MEM.inode_size). -/
structure Config where
  fhSize : Nat
  hash : String → Nat
  inodeSize : Nat

/-- Modelled from the spec: the collaborator-supplied execution context —
caller credentials and the export's umask (op_ctx->creds,
fs_umask(op_ctx->fsal_export)). -/
structure Ctx where
  uid : Nat := 0
  gid : Nat := 0
  umask : Nat := 0
deriving DecidableEq

/-- `mode & (~S_IFMT & 0xFFFF) & ~umask` (used by _mem_alloc_handle and
mem_copy_attrs_mask): ~S_IFMT & 0xFFFF = 0x0FFF, and the umask complement
is taken within 16 bits. -/
def applyModeMask (mode umask : Nat) : Nat :=
  mode &&& 0xFFF &&& (0xFFFF ^^^ umask % 65536)

/-- Little-endian byte expansion of `n` into `w` bytes (memcpy of a
fixed-width integer into the handle buffer). -/
def leBytes (w n : Nat) : List Nat :=
  (List.range w).map fun i => n / 256 ^ i % 256

/-- The byte sequence of a path string (one byte per character; paths in
this model are ASCII). -/
def pathBytes (p : String) : List Nat :=
  p.data.map Char.toNat

/-- package_mem_handle: the wire handle is the 64-bit path hash (8 bytes),
the 16-bit path length (2 bytes), then as many leading path bytes as fit in
the fixed envelope, zero-padded up to the envelope size. -/
def package_mem_handle (cfg : Config) (path : String) : List Nat :=
  let len := (pathBytes path).length
  let body := leBytes 8 (cfg.hash path) ++ leBytes 2 len ++
    (pathBytes path).take (min (cfg.fhSize - 10) len)
  body ++ List.replicate (cfg.fhSize - body.length) 0

/-- One filesystem object (struct mem_fsal_obj_handle).  The union arms are
flattened: directory fields (`next_i`, `dir_numlinks`, `children`), regular
file fields (`length`, `data`, `fd`, `share`, `datasize`), symlink field
(`link_contents`).  `children` is the id set held by the directory's two
AVL trees. -/
structure MemObj where
  fileid : Nat
  m_name : String
  parent : Option Nat := none
  ftype : FType
  handle : List Nat := []
  inavl : Bool := false
  index : Nat := 0
  attrs : Attrs := {}
  next_i : Nat := 0
  dir_numlinks : Nat := 0
  children : List Nat := []
  datasize : Nat := 0
  length : Nat := 0
  data : List Nat := []
  fd : Fd := {}
  share : Share := {}
  link_contents : String := ""
deriving DecidableEq

/-- The store: the export's object list in creation order (the arena), the
process-wide inode counter (mem_inode_number), and the lazily created
export root (mfe->root_handle). -/
structure Store where
  objs : List MemObj := []
  next_inode : Nat := 1
  root : Option Nat := none
deriving DecidableEq

/-- Dereference an object id (a C object pointer) in the store. -/
def getObj (s : Store) (i : Nat) : Option MemObj :=
  s.objs.find? fun o => o.fileid = i

/-- Update the object with id `i` in place. -/
def updObj (s : Store) (i : Nat) (f : MemObj → MemObj) : Store :=
  { s with objs := s.objs.map fun o => if o.fileid = i then f o else o }

/-- Remove the object with id `i` from the arena (gsh_free of the handle,
which also drops it from the export object list). -/
def freeObj (s : Store) (i : Nat) : Store :=
  { s with objs := s.objs.filter fun o => o.fileid ≠ i }

/-- The objects currently held by a directory's AVL trees. -/
def childObjs (s : Store) (d : MemObj) : List MemObj :=
  d.children.filterMap (getObj s)

/-- The number of objects whose `inavl` flag is set (used as the fuel
measure for the teardown recursion). -/
def inavlCount (s : Store) : Nat :=
  s.objs.countP fun o => o.inavl

/-- Every id held by any directory's AVL trees. -/
def allChildren (s : Store) : List Nat :=
  (s.objs.map fun o => o.children).flatten

/-- fullpath: concatenation of ancestor names with "/" separators; a root's
own name is its full path and gets no separator.  The C recursion climbs
`parent` pointers; the model bounds it by fuel (an acyclic chain in a store
of n objects has depth at most n) and returns `none` when the chain does
not bottom out. -/
def fullpathF (s : Store) : Nat → MemObj → Option String
  | 0, _ => none
  | fuel + 1, o =>
    match o.parent with
    | none => some o.m_name
    | some p =>
      match getObj s p with
      | none => none
      | some po => (fullpathF s fuel po).map fun pp => pp ++ "/" ++ o.m_name

/-- mem_insert_obj: assign the child the parent's current next-index
counter, increment the counter, put the child in both AVL trees, mark it
`inavl`, and increment the parent's live-child count. -/
def mem_insert_obj (s : Store) (p c : Nat) : Store :=
  match getObj s p with
  | none => s
  | some po =>
    let s1 := updObj s c fun ch => { ch with index := po.next_i, inavl := true }
    updObj s1 p fun pa =>
      { pa with next_i := pa.next_i + 1, dir_numlinks := pa.dir_numlinks + 1,
                children := pa.children ++ [c] }

/-- mem_remove_obj_locked with release=false: a no-op when the child is not
indexed; otherwise take it out of both AVL trees, clear `inavl`, and
decrement the parent's live-child count.  (The release=true variant is
inlined at its use in the teardown recursion below.) -/
def mem_remove_locked (s : Store) (p c : Nat) : Store :=
  match getObj s c with
  | none => s
  | some co =>
    if co.inavl = false then s
    else
      let s1 := updObj s c fun ch => { ch with inavl := false }
      updObj s1 p fun pa =>
        { pa with dir_numlinks := pa.dir_numlinks - 1,
                  children := pa.children.filter fun x => x ≠ c }

/-- mem_int_lookup: "." is the directory itself, ".." is its parent (NOENT
at the export root), anything else is an exact-name search of the name
tree. -/
def mem_int_lookup (s : Store) (dirId : Nat) (path : String) : Except Err Nat :=
  match getObj s dirId with
  | none => .error .faultSrv
  | some dir =>
    if path = ".." then
      match dir.parent with
      | none => .error .noent
      | some p => .ok p
    else if path = "." then .ok dirId
    else
      match (childObjs s dir).find? (fun o => o.m_name = path) with
      | none => .error .noent
      | some o => .ok o.fileid

/-- mem_close_my_fd: mark the descriptor closed. -/
def mem_close_my_fd (fd : Fd) : Fd :=
  { fd with openflags := FSAL_O_CLOSED }

/-- _mem_alloc_handle: build a fresh object — duplicate the name, record the
parent pointer and the fixed data capacity, compute the full path (failure
aborts the allocation), append the object to the export object list, pack
the wire handle from the path, take the next inode number, apply attribute
defaults per type, and finally insert into the parent's trees. -/
def mem_alloc_handle (cfg : Config) (ctx : Ctx) (t : Nat) (s : Store)
    (parentId : Option Nat) (name : String) (ftype : FType)
    (attrs : Option SetAttrs) : Option (Store × Nat) :=
  let pathOpt :=
    match parentId with
    | none => some name
    | some p =>
      match getObj s p with
      | none => none
      | some po => (fullpathF s s.objs.length po).map fun pp => pp ++ "/" ++ name
  match pathOpt with
  | none => none
  | some path =>
    let fid := s.next_inode
    let ct := t
    let a := attrs.getD {}
    let hasA := attrs.isSome
    let baseAttrs : Attrs :=
      { mode := if hasA && a.has_mode then applyModeMask a.mode ctx.umask else 0o600,
        owner := if hasA && a.has_owner then a.owner else ctx.uid,
        group := if hasA && a.has_group then a.group else ctx.gid,
        ctime := ct, chgtime := ct,
        atime := if hasA && a.has_atime then a.atime else ct,
        mtime := if hasA && a.has_mtime then a.mtime else ct,
        change := ct }
    let fsize := if hasA && a.has_size then a.filesize else 0
    let obj : MemObj :=
      match ftype with
      | .regular =>
        { fileid := fid, m_name := name, parent := parentId, ftype := ftype,
          handle := package_mem_handle cfg path, datasize := cfg.inodeSize,
          attrs := { baseAttrs with
                     filesize := fsize,
                     spaceused := fsize,
                     numlinks := 1 },
          length := fsize, data := List.replicate cfg.inodeSize 0 }
      | .directory =>
        { fileid := fid, m_name := name, parent := parentId, ftype := ftype,
          handle := package_mem_handle cfg path, datasize := cfg.inodeSize,
          attrs := { baseAttrs with numlinks := 2 },
          next_i := 2, dir_numlinks := 2, children := [] }
      | _ =>
        { fileid := fid, m_name := name, parent := parentId, ftype := ftype,
          handle := package_mem_handle cfg path, datasize := cfg.inodeSize,
          attrs := { baseAttrs with numlinks := 1 } }
    let s1 : Store := { s with objs := s.objs ++ [obj], next_inode := fid + 1 }
    let s2 :=
      match parentId with
      | some p => mem_insert_obj s1 p fid
      | none => s1
    some (s2, fid)

/-- mem_create_obj: the parent must be a directory; the name must not
resolve (a hit is EXIST, and a lookup error other than NOENT propagates);
otherwise allocate the object (allocation failure is NOMEM). -/
def mem_create_obj (cfg : Config) (ctx : Ctx) (t : Nat) (s : Store)
    (parentId : Nat) (ftype : FType) (name : String)
    (attrs_in : Option SetAttrs) : Store × Except Err Nat :=
  match getObj s parentId with
  | none => (s, .error .faultSrv)
  | some po =>
    if po.ftype ≠ .directory then (s, .error .notdir)
    else
      match mem_int_lookup s parentId name with
      | .ok _ => (s, .error .exist)
      | .error e =>
        if e ≠ .noent then (s, .error e)
        else
          match mem_alloc_handle cfg ctx t s (some parentId) name ftype attrs_in with
          | none => (s, .error .nomem)
          | some (s1, fid) => (s1, .ok fid)

/-- mem_lookup_path: only the export path resolves; the export root is
created lazily on first use, with mode 0755, no parent. -/
def mem_lookup_path (cfg : Config) (ctx : Ctx) (t : Nat) (s : Store)
    (path exportPath : String) : Store × Except Err Nat :=
  if path ≠ exportPath then (s, .error .noent)
  else
    match s.root with
    | some r => (s, .ok r)
    | none =>
      match mem_alloc_handle cfg ctx t s none exportPath .directory
          (some { has_mode := true, mode := 0o755 }) with
      | none => (s, .error .nomem)
      | some (s1, rid) => ({ s1 with root := some rid }, .ok rid)

/-- One yielded readdir entry: the child's name, the object, and the cookie
passed to the callback (`hdl->index + 1`). -/
structure DirEntry where
  name : String
  obj : Nat
  cookie : Nat
deriving DecidableEq

/-- Ordering of the index AVL tree (mem_i_cmpf): by insertion index. -/
def idxLe (a b : MemObj) : Prop := a.index ≤ b.index

/-- Strict index order (distinct indices make tree order strict). -/
def idxLt (a b : MemObj) : Prop := a.index < b.index

instance : DecidableRel idxLe := fun a b => inferInstanceAs (Decidable (a.index ≤ b.index))

instance : IsTotal MemObj idxLe := ⟨fun a b => Nat.le_total a.index b.index⟩

instance : IsTrans MemObj idxLe := ⟨fun _ _ _ hab hbc => Nat.le_trans hab hbc⟩

instance : IsAntisymm MemObj idxLt :=
  ⟨fun _ _ h1 h2 => absurd (Nat.lt_trans h1 h2) (Nat.lt_irrefl _)⟩

/-- mem_readdir: with no whence the seek location is 2; walk the index tree
in index order, skip entries whose index is below the seek location, and
hand each remaining child to the callback with cookie `index + 1`.  The
callback is modelled as always continuing, so the full suffix is yielded. -/
def mem_readdir (s : Store) (dirId : Nat) (whence : Option Nat) : List DirEntry :=
  match getObj s dirId with
  | none => []
  | some d =>
    let seekloc := match whence with | some w => w | none => 2
    (((childObjs s d).insertionSort idxLe).filter fun o =>
        decide (seekloc ≤ o.index)).map fun o =>
      { name := o.m_name, obj := o.fileid, cookie := o.index + 1 }

/-- mem_unlink: a directory with live-child count above 2 is NOTEMPTY; a
regular file whose global descriptor is not closed is FILE_OPEN; otherwise
the child is removed from the parent's trees without being released.  On
failure nothing is modified. -/
def mem_unlink (s : Store) (dirId objId : Nat) (name : String) : Store × Option Err :=
  match getObj s objId with
  | none => (s, some .faultSrv)
  | some o =>
    match o.ftype with
    | .directory =>
      if o.dir_numlinks > 2 then (s, some .notempty)
      else (mem_remove_locked s dirId objId, none)
    | .regular =>
      if o.fd.openflags ≠ FSAL_O_CLOSED then (s, some .fileOpen)
      else (mem_remove_locked s dirId objId, none)
    | _ => (mem_remove_locked s dirId objId, none)

/-- The unconditional tail of mem_rename: remove the object from the old
directory, replace its name, and insert it into the new directory.  Note
that the source does not update the object's `parent` pointer here (the
wire handle and the parent back-reference keep their creation-time
values). -/
def mem_rename_move (s : Store) (objId oldDirId newDirId : Nat)
    (new_name : String) : Store :=
  let s2 := mem_remove_locked s oldDirId objId
  let s3 := updObj s2 objId fun o => { o with m_name := new_name }
  mem_insert_obj s3 newDirId objId

/-- mem_rename: if the new name resolves, a same-object rename is a no-op;
the types must be compatible, a destination directory must be empty, and
the destination is unlinked (propagating its failure); then the object is
moved. -/
def mem_rename (s : Store) (objId oldDirId : Nat) (old_name : String)
    (newDirId : Nat) (new_name : String) : Store × Option Err :=
  match mem_int_lookup s newDirId new_name with
  | .ok dstId =>
    if dstId = objId then (s, none)
    else
      match getObj s objId, getObj s dstId with
      | some o, some dst =>
        if (o.ftype = .directory ∧ dst.ftype ≠ .directory) ∨
            (o.ftype ≠ .directory ∧ dst.ftype = .directory) then (s, some .exist)
        else if dst.ftype = .directory ∧ dst.dir_numlinks > 2 then (s, some .exist)
        else
          match mem_unlink s newDirId dstId new_name with
          | (s1, some e) => (s1, some e)
          | (s1, none) => (mem_rename_move s1 objId oldDirId newDirId new_name, none)
      | _, _ => (s, some .faultSrv)
  | .error _ => (mem_rename_move s objId oldDirId newDirId new_name, none)

/-- mem_copy_attrs_mask: refresh ctime, copy each masked field, default
atime/mtime to the new ctime, and derive chgtime/change from ctime. -/
def mem_copy_attrs_mask (ctx : Ctx) (t : Nat) (ain : SetAttrs) (prev : Attrs) : Attrs :=
  { prev with
    ctime := t
    filesize := if ain.has_size then ain.filesize else prev.filesize
    mode := if ain.has_mode then applyModeMask ain.mode ctx.umask else prev.mode
    owner := if ain.has_owner then ain.owner else prev.owner
    group := if ain.has_group then ain.group else prev.group
    atime := if ain.has_atime then ain.atime else t
    mtime := if ain.has_mtime then ain.mtime else t
    spaceused := if ain.has_spaceused then ain.spaceused else prev.spaceused
    chgtime := t
    change := t }

/-- Modelled from the spec: set_common_verifier (fsal_commonlib) — stamp the
exclusive-create verifier into the atime and mtime timestamp attributes and
set their mask bits. -/
def set_common_verifier (a : SetAttrs) (v : Nat × Nat) : SetAttrs :=
  { a with
    has_atime := true
    atime := v.1
    has_mtime := true
    mtime := v.2 }

/-- Modelled from the spec: check_verifier_attrlist — compare the supplied
verifier against the value stamped in the object's timestamp attributes. -/
def check_verifier_attrlist (attrs : Attrs) (v : Nat × Nat) : Bool :=
  (attrs.atime == v.1) && (attrs.mtime == v.2)

/-- The outcome of mem_open2: the updated store, the final contents of the
caller-supplied state descriptor (when one was passed), the status, and the
outputs `*new_obj` and `*caller_perm_check` (absent when the source leaves
them unset). -/
structure Open2Res where
  store : Store
  stateFd : Option Fd := none
  status : Option Err := none
  newObj : Option Nat := none
  permCheck : Option Bool := none
deriving DecidableEq

/-- mem_open2.  `name = none` is open-by-handle: with a state, check and
take the share reservation, record the (write-implies-read) flags and a
zero offset in the state's descriptor, apply the truncate flag to the
attributes, and check the verifier for exclusive (non-9P) modes, undoing
the share reservation and closing the descriptor on mismatch (EEXIST).
With no state the source assigns `my_fd = &hdl->mh_file.fd` from the local
`hdl` that is still NULL in this path, and the following store to
`my_fd->openflags` is undefined behaviour: modelled as `none`.
`name = some n` is open-by-name: resolve or create the child, record the
open flags in the state's descriptor or the child's global one, apply the
caller's attributes when the child already existed, and take the share
reservation when a state was passed.  No verifier check occurs on this
path.  attrs_out is not modelled (the caller of the model passes no
attribute request). -/
def mem_open2 (cfg : Config) (ctx : Ctx) (t : Nat) (s : Store) (objId : Nat)
    (state : Option Fd) (openflags : OpenFlags) (createmode : CreateMode)
    (name : Option String) (attrs_set : Option SetAttrs)
    (verifier : Nat × Nat) : Option Open2Res :=
  match getObj s objId with
  | none => none
  | some myself =>
    let truncated := openflags.trunc
    let setattrs := attrs_set.isSome
    let attrs_eff :=
      if createmode.isExclusive then set_common_verifier (attrs_set.getD {}) verifier
      else attrs_set.getD {}
    match name with
    | none =>
      match state with
      | none => none
      | some fd0 =>
        if check_share_conflict myself.share openflags false then
          some { store := s, stateFd := some fd0, status := some .shareDenied }
        else
          let s1 := updObj s objId fun o =>
            { o with share := update_share_counters o.share FSAL_O_CLOSED openflags }
          let fd1 : Fd := { openflags := withImpliedRead openflags, offset := 0 }
          let s2 :=
            if truncated then
              updObj s1 objId fun o =>
                { o with attrs := { o.attrs with filesize := 0, spaceused := 0 } }
            else s1
          if createmode.isExclusive ∧ createmode ≠ .exclusive_9p ∧
              check_verifier_attrlist myself.attrs verifier = false then
            let fd2 := mem_close_my_fd fd1
            let s3 := updObj s2 objId fun o =>
              { o with share := update_share_counters o.share openflags FSAL_O_CLOSED }
            some { store := s3, stateFd := some fd2, status := some .exist }
          else
            some { store := s2, stateFd := some fd1, status := none }
    | some n =>
      match mem_int_lookup s objId n with
      | .error e =>
        if e ≠ .noent then some { store := s, stateFd := state, status := some e }
        else
          match mem_create_obj cfg ctx t s objId .regular n
              (if createmode.isExclusive then some attrs_eff else attrs_set) with
          | (s1, .error e2) =>
            some { store := s1, stateFd := state, status := some e2 }
          | (s1, .ok fid) =>
            match state with
            | some fd0 =>
              let fd1 : Fd := { fd0 with openflags := withImpliedRead openflags }
              let s2 := updObj s1 fid fun o =>
                { o with share := update_share_counters o.share FSAL_O_CLOSED openflags }
              some { store := s2, stateFd := some fd1, status := none,
                     newObj := some fid, permCheck := some false }
            | none =>
              let s2 := updObj s1 fid fun o =>
                { o with fd := { o.fd with openflags := withImpliedRead openflags } }
              some { store := s2, stateFd := none, status := none,
                     newObj := some fid, permCheck := some false }
      | .ok hdlId =>
        let s1 :=
          match state with
          | some _ => s
          | none =>
            updObj s hdlId fun o =>
              { o with fd := { o.fd with openflags := withImpliedRead openflags } }
        let fd1 : Option Fd :=
          match state with
          | some fd0 => some { fd0 with openflags := withImpliedRead openflags }
          | none => none
        let s2 :=
          if setattrs ∧ attrs_eff.maskNonzero then
            updObj s1 hdlId fun o =>
              { o with attrs := mem_copy_attrs_mask ctx t attrs_eff o.attrs }
          else s1
        let s3 :=
          match state with
          | some _ =>
            updObj s2 hdlId fun o =>
              { o with share := update_share_counters o.share FSAL_O_CLOSED openflags }
          | none => s2
        some { store := s3, stateFd := fd1, status := none,
               newObj := some hdlId, permCheck := some true }

/-- mem_read2: READ_PLUS is unsupported; with a state the descriptor must be
open for read (NOT_OPENED otherwise); the share counters are checked against
a read; the request is clamped to the logical length; bytes inside the data
capacity are copied from the backing buffer and the rest of the clamped
range is the filler byte 97; the end-of-file flag is set exactly when the
clamped count is zero; atime is refreshed. -/
def mem_read2 (t : Nat) (s : Store) (objId : Nat) (bypass : Bool)
    (state : Option Fd) (offset reqSize : Nat) (readPlus : Bool) :
    Store × Except Err (List Nat × Nat × Bool) :=
  match getObj s objId with
  | none => (s, .error .faultSrv)
  | some myself =>
    if readPlus then (s, .error .notsupp)
    else
      let fdOk :=
        match state with
        | some fd0 => open_correct fd0.openflags FSAL_O_READ
        | none => true
      if fdOk = false then (s, .error .notOpened)
      else if check_share_conflict myself.share FSAL_O_READ bypass then
        (s, .error .shareDenied)
      else
        let bs :=
          if offset > myself.length then 0
          else if offset + reqSize > myself.length then myself.length - offset
          else reqSize
        let bytes :=
          if offset < myself.datasize then
            let readsize := min bs (myself.datasize - offset)
            (myself.data.drop offset).take readsize ++
              List.replicate (bs - readsize) 97
          else List.replicate bs 97
        let s1 := updObj s objId fun o => { o with attrs := { o.attrs with atime := t } }
        (s1, .ok (bytes, bs, bs == 0))

/-- mem_write2: WRITE_PLUS is unsupported; with a state the descriptor must
be open for write (NOT_OPENED otherwise) and no share check occurs; without
a state the global descriptor path checks the share counters against a
write.  A write past the current logical length extends the length and the
reported filesize to `offset + size`; only the part of the buffer that
falls inside the data capacity is stored; the modify/change stamps are
refreshed; the full byte count is reported as written. -/
def mem_write2 (t : Nat) (s : Store) (objId : Nat) (bypass : Bool)
    (state : Option Fd) (offset : Nat) (buffer : List Nat)
    (writePlus : Bool) : Store × Except Err Nat :=
  match getObj s objId with
  | none => (s, .error .faultSrv)
  | some myself =>
    if writePlus then (s, .error .notsupp)
    else
      let chk : Option Err :=
        match state with
        | some fd0 =>
          if open_correct fd0.openflags FSAL_O_WRITE = false then some .notOpened
          else none
        | none =>
          if check_share_conflict myself.share FSAL_O_WRITE bypass then
            some .shareDenied
          else none
      match chk with
      | some e => (s, .error e)
      | none =>
        let req := buffer.length
        let grow := offset + req > myself.length
        let newlen := if offset + req > myself.length then offset + req else myself.length
        let writesize := min req (myself.datasize - offset)
        let data' :=
          if offset < myself.datasize then
            myself.data.take offset ++ buffer.take writesize ++
              myself.data.drop (offset + writesize)
          else myself.data
        let s1 := updObj s objId fun o =>
          { o with
            length := newlen
            data := data'
            attrs := { o.attrs with
                       filesize := if grow then newlen else o.attrs.filesize,
                       mtime := t, chgtime := t, change := t } }
        (s1, .ok req)

/-- avltree_first of the name tree: the child with the least name. -/
def firstChildByName (s : Store) (d : MemObj) : Option Nat :=
  ((childObjs s d).foldl (fun acc o =>
    match acc with
    | none => some o
    | some m => if o.m_name < m.m_name then some o else some m) none).map
    fun o => o.fileid

mutual

/-- mem_release: releasing the export root or a still-indexed object is a
no-op; otherwise a directory first tears down its remaining children
(mem_clean_dir_tree), a symlink's target string is freed with it, and the
object is removed from the arena.  The unbounded C recursion is bounded by
fuel; `mem_release` below supplies provably sufficient fuel. -/
def releaseF : Nat → Store → Nat → Store
  | 0, s, _ => s
  | fuel + 1, s, i =>
    match getObj s i with
    | none => s
    | some o =>
      if o.parent = none ∨ o.inavl = true then s
      else
        let s1 := if o.ftype = FType.directory then cleanDirF fuel s i else s
        freeObj s1 i

/-- mem_clean_dir_tree: repeatedly take the first child of the name tree,
remove it from the directory (mem_remove_obj_locked with release=true,
whose release call is inlined here), until the directory is empty. -/
def cleanDirF : Nat → Store → Nat → Store
  | 0, s, _ => s
  | fuel + 1, s, d =>
    match getObj s d with
    | none => s
    | some dobj =>
      match firstChildByName s dobj with
      | none => s
      | some c =>
        let s1 := mem_remove_locked s d c
        let s2 := releaseF fuel s1 c
        cleanDirF fuel s2 d

end

/-- mem_release with fuel that is provably sufficient for well-formed
stores (each recursive step consumes at least one indexed object). -/
def mem_release (s : Store) (i : Nat) : Store :=
  releaseF (2 * inavlCount s + 1) s i

/-- mem_create_handle: a handle of the wrong size is BADHANDLE; otherwise
scan the object list in order and return the first object whose stored
handle bytes equal the presented ones; no match is STALE. -/
def mem_create_handle (cfg : Config) (s : Store) (h : List Nat) : Except Err Nat :=
  if h.length ≠ cfg.fhSize then .error .badhandle
  else
    match s.objs.find? (fun o => decide (o.handle = h)) with
    | none => .error .stale
    | some o => .ok o.fileid

/-- Store well-formedness, as maintained by the C structure invariants that
the model cannot get for free from pointers: object ids are distinct,
every id held in a directory's trees resolves to an object whose `inavl`
flag is set, and no object is held in two trees (or twice in one). -/
def WF (s : Store) : Prop :=
  (s.objs.map fun o => o.fileid).Nodup ∧
  (∀ o ∈ s.objs, ∀ c ∈ o.children, ∃ co ∈ s.objs, co.fileid = c ∧ co.inavl = true) ∧
  (allChildren s).Nodup

instance (s : Store) : Decidable (WF s) := by
  unfold WF allChildren
  infer_instance

/-- Distinct insertion indices among a directory's children (guaranteed by
the per-parent monotone counter in reachable states). -/
def dirDistinctIdx (s : Store) (d : MemObj) : Prop :=
  (childObjs s d).Pairwise fun a b => a.index ≠ b.index

instance (s : Store) (d : MemObj) : Decidable (dirDistinctIdx s d) := by
  unfold dirDistinctIdx
  infer_instance

/-- Every child's index is below the parent's next-index counter (the
insert invariant). -/
def dirIdxBound (d : MemObj) (l : List MemObj) : Prop :=
  ∀ x ∈ l, x.index < d.next_i

/-- Frame relation for the teardown recursion: from `s` to `r`, the count
of indexed objects does not grow, ids held in directory trees only
disappear, no object appears, a de-indexed object is never re-indexed, and
every object outside the touch set `F` is left exactly as it was. -/
def Evo (F : List Nat) (s r : Store) : Prop :=
  inavlCount r ≤ inavlCount s ∧
  (∀ x, x ∈ allChildren r → x ∈ allChildren s) ∧
  (∀ j, getObj s j = none → getObj r j = none) ∧
  (∀ j co co', getObj s j = some co → getObj r j = some co' →
    co.inavl = false → co'.inavl = false) ∧
  (∀ j, j ∉ F → getObj r j = getObj s j)

/-- A small concrete configuration used by the executable scenarios. -/
def cfgEx : Config := { fhSize := 20, hash := fun _ => 0, inodeSize := 8 }

/-- Scenario: the lazily created export root "/export" (id 1). -/
def sRoot : Store := (mem_lookup_path cfgEx {} 0 {} "/export" "/export").1

/-- Scenario: a regular file "f" created under the root (id 2). -/
def sF : Store := (mem_create_obj cfgEx {} 0 sRoot 1 .regular "f" none).1

/-- Scenario: the file renamed to "g" inside the same directory. -/
def sRen : Store := (mem_rename sF 2 1 "f" 1 "g").1

/-- Scenario: a second regular file named "f" created after the rename
(id 3); its creation path equals the first file's creation path. -/
def sFF : Store := (mem_create_obj cfgEx {} 0 sRen 1 .regular "f" none).1

/-- Scenario: a regular file "r" created with caller-supplied size 10
(id 2), so its logical length exceeds the data capacity 8. -/
def sLen10 : Store :=
  (mem_create_obj cfgEx {} 0 sRoot 1 .regular "r" (some { has_size := true, filesize := 10 })).1

/-- Scenario: a regular file "r" created with caller-supplied size 100
(id 2). -/
def sLen100 : Store :=
  (mem_create_obj cfgEx {} 0 sRoot 1 .regular "r" (some { has_size := true, filesize := 100 })).1

/-- The object stored under id `i` (with an irrelevant fallback), used to
state concrete instantiations. -/
def objAt (s : Store) (i : Nat) : MemObj :=
  match getObj s i with
  | some o => o
  | none => { fileid := 0, m_name := "", ftype := FType.regular }

/-! ## Helper lemmas -/

theorem getObj_mem (s : Store) (i : Nat) (o : MemObj) (h : getObj s i = some o) :
    o ∈ s.objs ∧ o.fileid = i := by
  unfold getObj at h
  refine ⟨List.mem_of_find?_eq_some h, ?_⟩
  have := List.find?_some h
  simpa using this

theorem find?_filter_eq (l : List MemObj) (p q : MemObj → Bool) :
    (l.filter q).find? p = l.find? fun a => q a && p a := by
  induction l with
  | nil => rfl
  | cons a l ih =>
    by_cases hq : q a
    · by_cases hp : p a <;> simp [List.filter_cons, hq, List.find?_cons, hp, ih]
    · simp [List.filter_cons, hq, List.find?_cons, ih]

theorem find?_fileid_of_mem (l : List MemObj)
    (hn : (l.map fun o => o.fileid).Nodup) (o : MemObj) (ho : o ∈ l) :
    l.find? (fun x => x.fileid = o.fileid) = some o := by
  induction l with
  | nil => cases ho
  | cons a rest ih =>
    rcases List.mem_cons.mp ho with rfl | hmem
    · simp [List.find?_cons]
    · rw [List.map_cons, List.nodup_cons] at hn
      have hne : ¬ a.fileid = o.fileid := by
        intro he
        exact hn.1 (he ▸ List.mem_map_of_mem (fun x => x.fileid) hmem)
      rw [List.find?_cons, decide_eq_false hne]
      exact ih hn.2 hmem

/-- With distinct ids, dereferencing a member's id yields that member. -/
theorem getObj_of_mem_nodup (s : Store) (o : MemObj)
    (hn : (s.objs.map fun x => x.fileid).Nodup) (ho : o ∈ s.objs) :
    getObj s o.fileid = some o :=
  find?_fileid_of_mem s.objs hn o ho

theorem getObj_updObj (s : Store) (i j : Nat) (f : MemObj → MemObj)
    (hf : ∀ o, (f o).fileid = o.fileid) :
    getObj (updObj s i f) j =
      (getObj s j).map fun o => if o.fileid = i then f o else o := by
  unfold getObj updObj
  simp only [List.find?_map]
  have hp : ((fun o => decide (o.fileid = j)) ∘ fun o => if o.fileid = i then f o else o) =
      fun o : MemObj => decide (o.fileid = j) := by
    funext o
    by_cases h : o.fileid = i <;> simp [h, hf]
  rw [hp]

theorem getObj_updObj_self (s : Store) (i : Nat) (f : MemObj → MemObj) (o : MemObj)
    (hf : ∀ o, (f o).fileid = o.fileid) (h : getObj s i = some o) :
    getObj (updObj s i f) i = some (f o) := by
  rw [getObj_updObj s i i f hf, h]
  have := (getObj_mem s i o h).2
  simp [this]

theorem getObj_updObj_ne (s : Store) (i j : Nat) (f : MemObj → MemObj)
    (hf : ∀ o, (f o).fileid = o.fileid) (hij : j ≠ i) :
    getObj (updObj s i f) j = getObj s j := by
  rw [getObj_updObj s i j f hf]
  cases h : getObj s j with
  | none => rfl
  | some o =>
    have := (getObj_mem s j o h).2
    simp [this, hij]

theorem getObj_freeObj_self (s : Store) (i : Nat) : getObj (freeObj s i) i = none := by
  unfold getObj freeObj
  simp only
  rw [find?_filter_eq]
  rw [List.find?_eq_none]
  intro x _
  by_cases h : x.fileid = i <;> simp [h]

theorem getObj_freeObj_ne (s : Store) (i j : Nat) (hij : j ≠ i) :
    getObj (freeObj s i) j = getObj s j := by
  unfold getObj freeObj
  simp only
  rw [find?_filter_eq]
  have hp : (fun a : MemObj => decide (a.fileid ≠ i) && decide (a.fileid = j)) =
      fun a : MemObj => decide (a.fileid = j) := by
    funext a
    by_cases h : a.fileid = j
    · have : a.fileid ≠ i := by omega
      simp [h, this, hij]
    · simp [h]
  rw [hp]

/-- The chunked buffer fill of mem_read2 (memcpy of the in-capacity part,
memset of the filler part) read pointwise: byte `k` of the result is the
backing byte at `offset + k` when that lies inside the capacity, and the
filler byte 97 otherwise. -/
theorem chunk_eq_map (data : List Nat) (offset bs ds : Nat) (hlen : data.length = ds) :
    (if offset < ds then
      (data.drop offset).take (min bs (ds - offset)) ++
        List.replicate (bs - min bs (ds - offset)) 97
    else List.replicate bs 97) =
    (List.range bs).map fun k => if offset + k < ds then data.getD (offset + k) 0 else 97 := by
  apply List.ext_getElem
  · by_cases h : offset < ds <;>
      simp [h, List.length_take, List.length_drop, hlen]
  · intro k hk1 hk2
    have hbs : k < bs := by
      simpa using hk2
    rw [List.getElem_map, List.getElem_range]
    by_cases h : offset < ds
    · simp only [h, if_true] at hk1 ⊢
      by_cases hin : k < min bs (ds - offset)
      · have hlt : k < ((data.drop offset).take (min bs (ds - offset))).length := by
          simp [List.length_take, List.length_drop, hlen]
          omega
        rw [List.getElem_append_left hlt]
        rw [List.getElem_take, List.getElem_drop]
        have hidx : offset + k < ds := by omega
        rw [if_pos hidx]
        rw [List.getD_eq_getElem]
      · have hlen1 : ((data.drop offset).take (min bs (ds - offset))).length =
            min bs (ds - offset) := by
          simp [List.length_take, List.length_drop, hlen]
        rw [List.getElem_append_right (by omega)]
        rw [List.getElem_replicate]
        have hidx : ¬ offset + k < ds := by omega
        rw [if_neg hidx]
    · simp only [h, if_false] at hk1 ⊢
      rw [List.getElem_replicate]
      have hidx : ¬ offset + k < ds := by omega
      rw [if_neg hidx]

/-! ## Claim C2 -/

/-- Claim C2 (amended): mem_read2 on a regular file clamps the requested
range to the logical length (the returned count is the requested length
clamped at `length - offset`, zero when the offset is at or past the
length); end-of-file is reported exactly when the returned count is zero —
a shortened but non-empty read reports eof = false; within the clamped
range, bytes below the data capacity come from the backing buffer and
bytes at or beyond the capacity are the filler byte 97. -/
theorem mem_read2_clamp_and_fill (t : Nat) (s : Store) (i : Nat) (bypass : Bool)
    (offset req : Nat) (o : MemObj)
    (ho : getObj s i = some o)
    (hnc : check_share_conflict o.share FSAL_O_READ bypass = false)
    (hdata : o.data.length = o.datasize) :
    (mem_read2 t s i bypass none offset req false).2 =
      .ok ((List.range (min req (o.length - offset))).map
            (fun k => if offset + k < o.datasize then o.data.getD (offset + k) 0 else 97),
          min req (o.length - offset),
          min req (o.length - offset) == 0) := by
  have hbs : (if offset > o.length then 0
      else if offset + req > o.length then o.length - offset else req) =
      min req (o.length - offset) := by
    split_ifs <;> omega
  simp only [mem_read2, ho]
  simp only [Bool.false_eq_true, if_false, reduceCtorEq]
  rw [hnc]
  simp only [Bool.false_eq_true, if_false]
  rw [hbs, chunk_eq_map o.data offset (min req (o.length - offset)) o.datasize hdata]

/-- Claim C2 counterexample: a read of 20 bytes from offset 0 against
logical length 10 is shortened to 10 bytes yet reports eof = false, where
the claim requires any shortened read to report eof = true. -/
theorem mem_read2_shortened_eof_cex :
    (mem_read2 7 sLen10 2 false none 0 20 false).2 =
      .ok ([0, 0, 0, 0, 0, 0, 0, 0, 97, 97], 10, false) ∧
    (getObj sLen10 2).map (fun o => (o.ftype, o.length, o.datasize)) =
      some (FType.regular, 10, 8) ∧ (10 : Nat) < 20 := by
  refine ⟨by decide, by decide, by decide⟩

/-- Claim C2 witness: the amended read theorem applied to the concrete
length-10 file. -/
theorem mem_read2_clamp_and_fill_w :
    (mem_read2 7 sLen10 2 false none 0 20 false).2 =
      .ok ((List.range (min 20 ((objAt sLen10 2).length - 0))).map
            (fun k => if 0 + k < (objAt sLen10 2).datasize then
              (objAt sLen10 2).data.getD (0 + k) 0 else 97),
          min 20 ((objAt sLen10 2).length - 0),
          min 20 ((objAt sLen10 2).length - 0) == 0) :=
  mem_read2_clamp_and_fill 7 sLen10 2 false 0 20 (objAt sLen10 2)
    (by decide) (by decide) (by decide)

/-! ## Claim C7 -/

/-- Claim C7 (amended): after write(object, offset, bytes) with the offset
at or beyond the data capacity, nothing is stored (the backing buffer is
unchanged) yet the full byte count is reported as written; the resulting
logical length and, when the write extends the file, the reported filesize
become `max(previous length, offset + len(bytes))` — equal to
`offset + len(bytes)` exactly when the write extends the file; reading the
full logical range afterwards returns the stored bytes for in-capacity
offsets and the filler byte for the rest. -/
theorem mem_write2_beyond_capacity (t t2 : Nat) (s : Store) (i : Nat)
    (bypass bypass2 : Bool) (offset : Nat) (buffer : List Nat) (o : MemObj)
    (ho : getObj s i = some o)
    (hcap : o.datasize ≤ offset)
    (hnc : check_share_conflict o.share FSAL_O_WRITE bypass = false)
    (hnc2 : check_share_conflict o.share FSAL_O_READ bypass2 = false)
    (hdata : o.data.length = o.datasize) :
    (mem_write2 t s i bypass none offset buffer false).2 = .ok buffer.length ∧
    ∃ o', getObj (mem_write2 t s i bypass none offset buffer false).1 i = some o' ∧
      o'.data = o.data ∧
      o'.length = max o.length (offset + buffer.length) ∧
      o'.attrs.filesize =
        (if o.length < offset + buffer.length then offset + buffer.length
         else o.attrs.filesize) ∧
      (mem_read2 t2 (mem_write2 t s i bypass none offset buffer false).1 i
          bypass2 none 0 o'.length false).2 =
        .ok ((List.range o'.length).map
              (fun k => if k < o.datasize then o.data.getD k 0 else 97),
            o'.length, o'.length == 0) := by
  have hoff : ¬ offset < o.datasize := by omega
  set g : MemObj → MemObj := fun ob =>
    { ob with
      length := if offset + buffer.length > o.length then offset + buffer.length else o.length
      data := o.data
      attrs := { ob.attrs with
                 filesize := if offset + buffer.length > o.length then
                   (if offset + buffer.length > o.length then offset + buffer.length
                    else o.length) else ob.attrs.filesize,
                 mtime := t, chgtime := t, change := t } } with hg
  have key : mem_write2 t s i bypass none offset buffer false =
      (updObj s i g, .ok buffer.length) := by
    rw [hg]
    simp only [mem_write2, ho, hnc, hoff, Bool.false_eq_true, if_false, reduceCtorEq]
  have hself : getObj (updObj s i g) i = some (g o) :=
    getObj_updObj_self s i g o (by intro ob; rw [hg]) ho
  rw [key]
  refine ⟨rfl, g o, hself, ?_, ?_, ?_, ?_⟩
  · rfl
  · show (if offset + buffer.length > o.length then offset + buffer.length else o.length) =
      max o.length (offset + buffer.length)
    split_ifs <;> omega
  · show (if offset + buffer.length > o.length then
        (if offset + buffer.length > o.length then offset + buffer.length else o.length)
      else o.attrs.filesize) =
      (if o.length < offset + buffer.length then offset + buffer.length
       else o.attrs.filesize)
    split_ifs <;> first | rfl | omega
  · have hread := mem_read2_clamp_and_fill t2 (updObj s i g) i bypass2 0 (g o).length (g o)
      hself hnc2 hdata
    rw [hread]
    have hmin : min (g o).length ((g o).length - 0) = (g o).length := by omega
    rw [hmin]
    have hfun : (fun k => if 0 + k < (g o).datasize then (g o).data.getD (0 + k) 0 else 97) =
        fun k => if k < o.datasize then o.data.getD k 0 else 97 := by
      funext k
      show (if 0 + k < o.datasize then o.data.getD (0 + k) 0 else 97) =
        if k < o.datasize then o.data.getD k 0 else 97
      simp [Nat.zero_add]
    rw [hfun]

/-- Claim C7 counterexample: a file of logical length 100 and capacity 8;
writing 1 byte at offset 50 (beyond capacity) reports 1 byte written, but
the resulting logical length is still 100, not `offset + len(bytes) = 51`
as the claim states. -/
theorem mem_write2_length_cex :
    (mem_write2 0 sLen100 2 false none 50 [5] false).2 = .ok 1 ∧
    (getObj sLen100 2).map (fun o => (o.length, o.datasize)) = some (100, 8) ∧
    ((getObj (mem_write2 0 sLen100 2 false none 50 [5] false).1 2).map
      fun o => o.length) = some 100 ∧
    (100 : Nat) ≠ 50 + 1 := by
  refine ⟨by decide, by decide, by decide, by decide⟩

/-- Claim C7 witness: the amended write theorem applied to the concrete
length-100 file with a 1-byte write at offset 50. -/
theorem mem_write2_beyond_capacity_w :
    (mem_write2 0 sLen100 2 false none 50 [5] false).2 = .ok [5].length ∧
    ∃ o', getObj (mem_write2 0 sLen100 2 false none 50 [5] false).1 2 = some o' ∧
      o'.data = (objAt sLen100 2).data ∧
      o'.length = max (objAt sLen100 2).length (50 + [5].length) ∧
      o'.attrs.filesize =
        (if (objAt sLen100 2).length < 50 + [5].length then 50 + [5].length
         else (objAt sLen100 2).attrs.filesize) ∧
      (mem_read2 3 (mem_write2 0 sLen100 2 false none 50 [5] false).1 2
          false none 0 o'.length false).2 =
        .ok ((List.range o'.length).map
              (fun k => if k < (objAt sLen100 2).datasize then
                (objAt sLen100 2).data.getD k 0 else 97),
            o'.length, o'.length == 0) :=
  mem_write2_beyond_capacity 0 3 sLen100 2 false false 50 [5] (objAt sLen100 2)
    (by decide) (by decide) (by decide) (by decide) (by decide)

/-! ## Claim C10 -/

/-- Claim C10: a read or write through a caller-supplied state fails with
NOT_OPENED and transfers nothing unless the state's descriptor is open for
the matching access mode; the global-descriptor path (no state) never
performs that check — its only failure (besides the unsupported plus
variants, excluded here) is a share conflict. -/
theorem io_state_requires_open_mode (t : Nat) (s : Store) (i : Nat) (bypass : Bool)
    (fd : Fd) (offset req : Nat) (buf : List Nat) (o : MemObj)
    (ho : getObj s i = some o) :
    (open_correct fd.openflags FSAL_O_READ = false →
      mem_read2 t s i bypass (some fd) offset req false = (s, .error .notOpened)) ∧
    (open_correct fd.openflags FSAL_O_WRITE = false →
      mem_write2 t s i bypass (some fd) offset buf false = (s, .error .notOpened)) ∧
    (open_correct fd.openflags FSAL_O_READ = true →
      (mem_read2 t s i bypass (some fd) offset req false).2 ≠ .error .notOpened) ∧
    (open_correct fd.openflags FSAL_O_WRITE = true →
      (mem_write2 t s i bypass (some fd) offset buf false).2 ≠ .error .notOpened) ∧
    (∀ e, (mem_read2 t s i bypass none offset req false).2 = .error e →
      e = .shareDenied) ∧
    (∀ e, (mem_write2 t s i bypass none offset buf false).2 = .error e →
      e = .shareDenied) := by
  refine ⟨?_, ?_, ?_, ?_, ?_, ?_⟩
  · intro h
    simp [mem_read2, ho, h]
  · intro h
    simp [mem_write2, ho, h]
  · intro h
    simp only [mem_read2, ho, h]
    by_cases hc : check_share_conflict o.share FSAL_O_READ bypass = true <;> simp [hc]
  · intro h
    simp only [mem_write2, ho, h]
    by_cases hc : check_share_conflict o.share FSAL_O_WRITE bypass = true <;> simp [hc]
  · intro e he
    simp only [mem_read2, ho] at he
    by_cases hc : check_share_conflict o.share FSAL_O_READ bypass = true <;>
      simp [hc] at he
    · exact he.symm
  · intro e he
    simp only [mem_write2, ho] at he
    by_cases hc : check_share_conflict o.share FSAL_O_WRITE bypass = true <;>
      simp [hc] at he
    · exact he.symm

/-- Claim C10 witness: the open-mode theorem applied to the concrete file
"f" with a closed descriptor. -/
theorem io_state_requires_open_mode_w :
    (open_correct (Fd.openflags {}) FSAL_O_READ = false →
      mem_read2 9 sF 2 false (some {}) 0 4 false = (sF, .error .notOpened)) ∧
    (open_correct (Fd.openflags {}) FSAL_O_WRITE = false →
      mem_write2 9 sF 2 false (some {}) 0 [1] false = (sF, .error .notOpened)) ∧
    (open_correct (Fd.openflags {}) FSAL_O_READ = true →
      (mem_read2 9 sF 2 false (some {}) 0 4 false).2 ≠ .error .notOpened) ∧
    (open_correct (Fd.openflags {}) FSAL_O_WRITE = true →
      (mem_write2 9 sF 2 false (some {}) 0 [1] false).2 ≠ .error .notOpened) ∧
    (∀ e, (mem_read2 9 sF 2 false none 0 4 false).2 = .error e → e = .shareDenied) ∧
    (∀ e, (mem_write2 9 sF 2 false none 0 [1] false).2 = .error e → e = .shareDenied) :=
  io_state_requires_open_mode 9 sF 2 false {} 0 4 [1] (objAt sF 2) (by decide)

/-! ## Claim C8 -/

/-- After mem_remove_obj_locked the child still exists, is no longer
indexed, and keeps its identity, handle, parent back-reference and type. -/
theorem remove_locked_child (s : Store) (p c : Nat) (co : MemObj)
    (hc : getObj s c = some co) :
    ∃ co', getObj (mem_remove_locked s p c) c = some co' ∧
      co'.inavl = false ∧ co'.fileid = co.fileid ∧ co'.handle = co.handle ∧
      co'.parent = co.parent ∧ co'.ftype = co.ftype := by
  by_cases hin : co.inavl = false
  · refine ⟨co, ?_, hin, rfl, rfl, rfl, rfl⟩
    simp [mem_remove_locked, hc, hin]
  · have hin' : co.inavl = true := by
      cases h : co.inavl
      · exact absurd h hin
      · rfl
    have hrm : mem_remove_locked s p c =
        updObj (updObj s c fun ch => { ch with inavl := false }) p fun pa =>
          { pa with dir_numlinks := pa.dir_numlinks - 1,
                    children := pa.children.filter fun x => x ≠ c } := by
      simp [mem_remove_locked, hc, hin']
    have h1 : getObj (updObj s c fun ch => { ch with inavl := false }) c =
        some { co with inavl := false } :=
      getObj_updObj_self s c _ co (fun o => rfl) hc
    have h2 := getObj_updObj (updObj s c fun ch => { ch with inavl := false }) p c
      (fun pa => { pa with
                   dir_numlinks := pa.dir_numlinks - 1
                   children := pa.children.filter fun x => x ≠ c })
      (fun _ => rfl)
    rw [hrm, h2, h1]
    simp only [Option.map_some]
    refine ⟨_, rfl, ?_, ?_, ?_, ?_, ?_⟩ <;>
      by_cases hcp : co.fileid = p <;> simp [hcp]

/-- After mem_remove_obj_locked on an indexed child, the parent's tree no
longer holds the child's id. -/
theorem remove_locked_parent_children (s : Store) (p c : Nat) (co : MemObj)
    (hc : getObj s c = some co) (hin : co.inavl = true) :
    ∀ d', getObj (mem_remove_locked s p c) p = some d' → c ∉ d'.children := by
  intro d' hd'
  have hrm : mem_remove_locked s p c =
      updObj (updObj s c fun ch => { ch with inavl := false }) p fun pa =>
        { pa with dir_numlinks := pa.dir_numlinks - 1,
                  children := pa.children.filter fun x => x ≠ c } := by
    simp [mem_remove_locked, hc, hin]
  have h2 := getObj_updObj (updObj s c fun ch => { ch with inavl := false }) p p
    (fun pa => { pa with
                 dir_numlinks := pa.dir_numlinks - 1
                 children := pa.children.filter fun x => x ≠ c })
    (fun _ => rfl)
  rw [hrm, h2] at hd'
  cases hmid : getObj (updObj s c fun ch => { ch with inavl := false }) p with
  | none => rw [hmid] at hd'; cases hd'
  | some x =>
    rw [hmid] at hd'
    have hx : x.fileid = p := (getObj_mem _ p x hmid).2
    have hd2 := Option.some.inj hd'
    rw [← hd2]
    simp only [hx, if_true]
    intro hmem
    have := List.of_mem_filter hmem
    simp at this

/-- Claim C8: mem_unlink fails with NOTEMPTY on a directory whose
live-child count exceeds 2 and with FILE_OPEN on a regular file whose
global descriptor is not closed, in both cases leaving the store (parent
index and child) unchanged; otherwise it removes the child from the
parent's index without releasing it — the child object persists, marked no
longer indexed, with its handle intact. -/
theorem mem_unlink_spec (s : Store) (dirId objId : Nat) (name : String) (o : MemObj)
    (ho : getObj s objId = some o) :
    (o.ftype = .directory → 2 < o.dir_numlinks →
      mem_unlink s dirId objId name = (s, some .notempty)) ∧
    (o.ftype = .regular → o.fd.openflags ≠ FSAL_O_CLOSED →
      mem_unlink s dirId objId name = (s, some .fileOpen)) ∧
    ((o.ftype = .directory → o.dir_numlinks ≤ 2) →
     (o.ftype = .regular → o.fd.openflags = FSAL_O_CLOSED) →
      mem_unlink s dirId objId name = (mem_remove_locked s dirId objId, none) ∧
      (∃ o', getObj (mem_remove_locked s dirId objId) objId = some o' ∧
        o'.inavl = false ∧ o'.handle = o.handle ∧ o'.fileid = o.fileid) ∧
      (o.inavl = true → ∀ d', getObj (mem_remove_locked s dirId objId) dirId = some d' →
        objId ∉ d'.children)) := by
  refine ⟨?_, ?_, ?_⟩
  · intro h1 h2
    simp [mem_unlink, ho, h1, h2]
  · intro h1 h2
    simp [mem_unlink, ho, h1, h2]
  · intro h1 h2
    refine ⟨?_, ?_, ?_⟩
    · cases hft : o.ftype <;> simp_all [mem_unlink, ho] <;> omega
    · obtain ⟨o', ha, hb, hcfid, hd, _, _⟩ := remove_locked_child s dirId objId o ho
      exact ⟨o', ha, hb, hd, hcfid⟩
    · intro hin
      exact remove_locked_parent_children s dirId objId o ho hin

/-- Claim C8 witness: the unlink theorem applied to the file "f" in the
concrete store (closed descriptor, so the removal branch applies). -/
theorem mem_unlink_spec_w :
    ((objAt sF 2).ftype = .directory → 2 < (objAt sF 2).dir_numlinks →
      mem_unlink sF 1 2 "f" = (sF, some .notempty)) ∧
    ((objAt sF 2).ftype = .regular → (objAt sF 2).fd.openflags ≠ FSAL_O_CLOSED →
      mem_unlink sF 1 2 "f" = (sF, some .fileOpen)) ∧
    (((objAt sF 2).ftype = .directory → (objAt sF 2).dir_numlinks ≤ 2) →
     ((objAt sF 2).ftype = .regular → (objAt sF 2).fd.openflags = FSAL_O_CLOSED) →
      mem_unlink sF 1 2 "f" = (mem_remove_locked sF 1 2, none) ∧
      (∃ o', getObj (mem_remove_locked sF 1 2) 2 = some o' ∧
        o'.inavl = false ∧ o'.handle = (objAt sF 2).handle ∧
        o'.fileid = (objAt sF 2).fileid) ∧
      ((objAt sF 2).inavl = true → ∀ d', getObj (mem_remove_locked sF 1 2) 1 = some d' →
        2 ∉ d'.children)) :=
  mem_unlink_spec sF 1 2 "f" (objAt sF 2) (by decide)

/-! ## Claim C4 -/

/-- mem_remove_obj_locked on an indexed child when both ends exist: the
parent keeps its identity, name and next-index counter, and its tree drops
exactly the child's id.  (This also covers the degenerate `p = c` case.) -/
theorem remove_locked_parent (s : Store) (p c : Nat) (co : MemObj)
    (hc : getObj s c = some co) (hin : co.inavl = true) (po : MemObj)
    (hp : getObj s p = some po) :
    ∃ po', getObj (mem_remove_locked s p c) p = some po' ∧
      po'.children = po.children.filter (fun x => x ≠ c) ∧
      po'.next_i = po.next_i ∧ po'.fileid = po.fileid ∧ po'.m_name = po.m_name ∧
      po'.dir_numlinks = po.dir_numlinks - 1 := by
  have hrm : mem_remove_locked s p c =
      updObj (updObj s c fun ch => { ch with inavl := false }) p fun pa =>
        { pa with
          dir_numlinks := pa.dir_numlinks - 1
          children := pa.children.filter fun x => x ≠ c } := by
    simp [mem_remove_locked, hc, hin]
  rw [hrm]
  have h1 := getObj_updObj s c p (fun ch => { ch with inavl := false }) (fun _ => rfl)
  rw [hp] at h1
  rcases hmid : getObj (updObj s c fun ch => { ch with inavl := false }) p with _ | pm
  · rw [hmid] at h1
    cases h1
  · rw [hmid] at h1
    have hpm := Option.some.inj h1.symm
    have hpf : pm.fileid = p := (getObj_mem _ p pm hmid).2
    have h2 := getObj_updObj_self (updObj s c fun ch => { ch with inavl := false }) p
      (fun pa => { pa with
                   dir_numlinks := pa.dir_numlinks - 1
                   children := pa.children.filter fun x => x ≠ c })
      pm (fun _ => rfl) hmid
    refine ⟨_, h2, ?_, ?_, ?_, ?_, ?_⟩ <;>
      · show _ = _
        rw [← hpm]
        by_cases hcp : po.fileid = c <;> simp [hcp]

/-- mem_remove_obj_locked never changes a parent's next-index counter
(indices are never reissued after a removal). -/
theorem remove_locked_next_i (s : Store) (p c : Nat) (po : MemObj)
    (hp : getObj s p = some po) :
    ∀ po', getObj (mem_remove_locked s p c) p = some po' → po'.next_i = po.next_i := by
  intro po' hpo'
  rcases hc : getObj s c with _ | co
  · rw [mem_remove_locked, hc] at hpo'
    rw [hp] at hpo'
    cases hpo'
    rfl
  · by_cases hin : co.inavl = true
    · obtain ⟨po2, hpo2, _, hni, _, _, _⟩ := remove_locked_parent s p c co hc hin po hp
      rw [hpo2] at hpo'
      cases hpo'
      exact hni
    · have hin' : co.inavl = false := by
        cases h : co.inavl
        · rfl
        · exact absurd h hin
      rw [mem_remove_locked, hc] at hpo'
      simp only [hin', if_true] at hpo'
      rw [hp] at hpo'
      cases hpo'
      rfl

/-- Dropping some ids from a list of tree members and then resolving them
is resolving first and dropping the objects with those ids. -/
theorem filterMap_getObj_filter (s : Store) (ids : List Nat) (x : Nat) :
    ((ids.filter fun c => c ≠ x).filterMap (getObj s)) =
      (ids.filterMap (getObj s)).filter fun o => o.fileid ≠ x := by
  induction ids with
  | nil => rfl
  | cons c rest ih =>
    simp only [ne_eq, decide_not] at ih
    by_cases hcx : c = x
    · subst hcx
      rcases hg : getObj s c with _ | o
      · simp [List.filter_cons, List.filterMap_cons, hg, ih]
      · have hfid : o.fileid = c := (getObj_mem s c o hg).2
        simp [List.filter_cons, List.filterMap_cons, hg, ih, hfid]
    · rcases hg : getObj s c with _ | o
      · simp [List.filter_cons, List.filterMap_cons, hg, ih, hcx]
      · have hfid : o.fileid = c := (getObj_mem s c o hg).2
        simp [List.filter_cons, List.filterMap_cons, hg, ih, hfid, hcx]

/-- If every object a first filter removes would be removed by the second
anyway, the first filter is redundant. -/
theorem filter_kills (l : List MemObj) (x : Nat) (q : MemObj → Bool)
    (h : ∀ a ∈ l, a.fileid = x → q a = false) :
    ((l.filter fun o => o.fileid ≠ x).filter q) = l.filter q := by
  induction l with
  | nil => rfl
  | cons a rest ih =>
    have ih' := ih fun b hb hbx => h b (List.mem_cons_of_mem a hb) hbx
    simp only [ne_eq, decide_not] at ih'
    by_cases hax : a.fileid = x
    · have hqa := h a (List.mem_cons_self a rest) hax
      simp [List.filter_cons, hax, hqa, ih']
    · by_cases hq : q a = true <;> simp [List.filter_cons, hax, hq, ih']

/-- Sorting two lists whose filtered contents agree, both with pairwise
distinct indices, and filtering, yields identical lists (tree iteration
order is determined by the index keys). -/
theorem filter_insertionSort_congr (l1 l2 : List MemObj) (q : MemObj → Bool)
    (hperm : (l1.filter q).Perm (l2.filter q))
    (hne1 : l1.Pairwise fun a b => a.index ≠ b.index)
    (hne2 : l2.Pairwise fun a b => a.index ≠ b.index) :
    (l1.insertionSort idxLe).filter q = (l2.insertionSort idxLe).filter q := by
  have p1 : ((l1.insertionSort idxLe).filter q).Perm (l1.filter q) :=
    (List.perm_insertionSort idxLe l1).filter q
  have p2 : ((l2.insertionSort idxLe).filter q).Perm (l2.filter q) :=
    (List.perm_insertionSort idxLe l2).filter q
  have hp : ((l1.insertionSort idxLe).filter q).Perm ((l2.insertionSort idxLe).filter q) :=
    (p1.trans hperm).trans p2.symm
  have hsym : ∀ {a b : MemObj}, a.index ≠ b.index → b.index ≠ a.index :=
    fun h => h.symm
  have n1 : (l1.insertionSort idxLe).Pairwise (fun a b => a.index ≠ b.index) :=
    ((List.perm_insertionSort idxLe l1).pairwise_iff fun h => hsym h).mpr hne1
  have n2 : (l2.insertionSort idxLe).Pairwise (fun a b => a.index ≠ b.index) :=
    ((List.perm_insertionSort idxLe l2).pairwise_iff fun h => hsym h).mpr hne2
  have s1 : List.Sorted idxLe (l1.insertionSort idxLe) :=
    List.sorted_insertionSort idxLe l1
  have s2 : List.Sorted idxLe (l2.insertionSort idxLe) :=
    List.sorted_insertionSort idxLe l2
  have t1 : List.Sorted idxLt ((l1.insertionSort idxLe).filter q) :=
    ((s1.filter q).and (n1.filter q)).imp fun h =>
      Nat.lt_of_le_of_ne h.1 h.2
  have t2 : List.Sorted idxLt ((l2.insertionSort idxLe).filter q) :=
    ((s2.filter q).and (n2.filter q)).imp fun h =>
      Nat.lt_of_le_of_ne h.1 h.2
  exact List.eq_of_perm_of_sorted hp t1 t2

/-- Claim C4: the directory index and iteration-cookie contract.  (i)
insert gives the child the parent's current next-index counter and then
increments it; under the index invariant the new child's index is strictly
above every existing child's.  (ii) remove never changes the counter, so
indices are never reused.  (iii) iteration from a cookie yields exactly
the children whose index is at least the cookie, each with next_cookie =
index + 1, (iv) in strictly increasing cookie order.  (v) Removing an
already-yielded child (index below the cookie) leaves the iteration from
that cookie unchanged. -/
theorem mem_dir_index_cookie_spec :
    (∀ (s : Store) (p c : Nat) (po co : MemObj), getObj s p = some po →
      getObj s c = some co → c ≠ p →
      ∃ co' po', getObj (mem_insert_obj s p c) c = some co' ∧
        getObj (mem_insert_obj s p c) p = some po' ∧
        co'.index = po.next_i ∧ po'.next_i = po.next_i + 1 ∧
        po'.children = po.children ++ [c] ∧
        (dirIdxBound po (childObjs s po) → ∀ x ∈ childObjs s po, x.index < co'.index)) ∧
    (∀ (s : Store) (p c : Nat) (po : MemObj), getObj s p = some po →
      ∀ po', getObj (mem_remove_locked s p c) p = some po' → po'.next_i = po.next_i) ∧
    (∀ (s : Store) (dirId : Nat) (d : MemObj) (ck : Nat) (e : DirEntry),
      getObj s dirId = some d →
      (e ∈ mem_readdir s dirId (some ck) ↔
        ∃ x ∈ childObjs s d, ck ≤ x.index ∧
          e = { name := x.m_name, obj := x.fileid, cookie := x.index + 1 })) ∧
    (∀ (s : Store) (dirId : Nat) (d : MemObj) (ck : Nat), getObj s dirId = some d →
      dirDistinctIdx s d →
      (mem_readdir s dirId (some ck)).Pairwise fun e1 e2 => e1.cookie < e2.cookie) ∧
    (∀ (s : Store) (dirId xId : Nat) (d xo : MemObj) (ck : Nat),
      getObj s dirId = some d → getObj s xId = some xo →
      dirId ∉ d.children → dirDistinctIdx s d → xo.index < ck →
      mem_readdir (mem_remove_locked s dirId xId) dirId (some ck) =
        mem_readdir s dirId (some ck)) := by
  refine ⟨?_, ?_, ?_, ?_, ?_⟩
  · -- (i) insert semantics
    intro s p c po co hp hc hcp
    have hins : mem_insert_obj s p c =
        updObj (updObj s c fun ch => { ch with index := po.next_i, inavl := true }) p
          fun pa => { pa with
                      next_i := pa.next_i + 1
                      dir_numlinks := pa.dir_numlinks + 1
                      children := pa.children ++ [c] } := by
      simp [mem_insert_obj, hp]
    have h1 : getObj (updObj s c fun ch => { ch with index := po.next_i, inavl := true }) c =
        some { co with index := po.next_i, inavl := true } :=
      getObj_updObj_self s c _ co (fun _ => rfl) hc
    have h1p : getObj (updObj s c fun ch => { ch with index := po.next_i, inavl := true }) p =
        getObj s p :=
      getObj_updObj_ne s c p _ (fun _ => rfl) (fun h => hcp h.symm)
    have h2c : getObj (mem_insert_obj s p c) c =
        some { co with index := po.next_i, inavl := true } := by
      rw [hins]
      rw [getObj_updObj_ne (updObj s c fun ch => { ch with index := po.next_i, inavl := true })
        p c
        (fun pa => { pa with
                     next_i := pa.next_i + 1
                     dir_numlinks := pa.dir_numlinks + 1
                     children := pa.children ++ [c] })
        (fun _ => rfl) hcp]
      exact h1
    have h2p : getObj (mem_insert_obj s p c) p =
        some { po with
               next_i := po.next_i + 1
               dir_numlinks := po.dir_numlinks + 1
               children := po.children ++ [c] } := by
      rw [hins]
      exact getObj_updObj_self _ p _ po (fun _ => rfl) (h1p.trans hp)
    refine ⟨_, _, h2c, h2p, rfl, rfl, rfl, ?_⟩
    intro hbound x hx
    exact hbound x hx
  · -- (ii) remove preserves the counter
    intro s p c po hp po' hpo'
    exact remove_locked_next_i s p c po hp po' hpo'
  · -- (iii) iteration contents
    intro s dirId d ck e hd
    simp only [mem_readdir, hd]
    constructor
    · intro he
      obtain ⟨y, hy, hye⟩ := List.mem_map.mp he
      have hy1 := List.mem_filter.mp hy
      have hy2 : y ∈ childObjs s d :=
        (List.perm_insertionSort idxLe (childObjs s d)).mem_iff.mp hy1.1
      exact ⟨y, hy2, by simpa using hy1.2, hye.symm⟩
    · rintro ⟨x, hx, hckx, rfl⟩
      apply List.mem_map.mpr
      refine ⟨x, List.mem_filter.mpr ⟨?_, by simpa using hckx⟩, rfl⟩
      exact (List.perm_insertionSort idxLe (childObjs s d)).mem_iff.mpr hx
  · -- (iv) strictly increasing cookies
    intro s dirId d ck hd hdist
    simp only [mem_readdir, hd]
    apply List.pairwise_map.mpr
    have hsym : ∀ {a b : MemObj}, a.index ≠ b.index → b.index ≠ a.index :=
      fun h => h.symm
    have hn : ((childObjs s d).insertionSort idxLe).Pairwise
        (fun a b => a.index ≠ b.index) :=
      ((List.perm_insertionSort idxLe (childObjs s d)).pairwise_iff
        fun h => hsym h).mpr hdist
    have hs : List.Sorted idxLe ((childObjs s d).insertionSort idxLe) :=
      List.sorted_insertionSort idxLe (childObjs s d)
    have := ((hs.filter (fun o => decide (ck ≤ o.index))).and
      (hn.filter (fun o => decide (ck ≤ o.index)))).imp
      (fun h => Nat.lt_of_le_of_ne h.1 h.2)
    exact this.imp fun h => Nat.succ_lt_succ h
  · -- (v) resume stability under removal of a yielded entry
    intro s dirId xId d xo ck hd hx hself hdist hidx
    by_cases hin : xo.inavl = true
    · obtain ⟨d', hd', hch, _, _, _, _⟩ := remove_locked_parent s dirId xId xo hx hin d hd
      simp only [mem_readdir, hd, hd']
      have hres : ∀ c ∈ d.children.filter (fun x => x ≠ xId),
          getObj (mem_remove_locked s dirId xId) c = getObj s c := by
        intro c hcmem
        have hcx : c ≠ xId := by simpa using (List.of_mem_filter hcmem)
        have hcd : c ≠ dirId := by
          intro hcd
          exact hself (hcd ▸ List.mem_of_mem_filter hcmem)
        have hrm : mem_remove_locked s dirId xId =
            updObj (updObj s xId fun ch => { ch with inavl := false }) dirId
              fun pa => { pa with
                          dir_numlinks := pa.dir_numlinks - 1
                          children := pa.children.filter fun x => x ≠ xId } := by
          simp [mem_remove_locked, hx, hin]
        rw [hrm,
          getObj_updObj_ne (updObj s xId fun ch => { ch with inavl := false }) dirId c
            (fun pa => { pa with
                         dir_numlinks := pa.dir_numlinks - 1
                         children := pa.children.filter fun x => x ≠ xId })
            (fun _ => rfl) hcd,
          getObj_updObj_ne s xId c (fun ch => { ch with inavl := false })
            (fun _ => rfl) hcx]
      have hco : childObjs (mem_remove_locked s dirId xId) d' =
          (childObjs s d).filter fun o => o.fileid ≠ xId := by
        unfold childObjs
        rw [hch]
        rw [List.filterMap_congr hres]
        exact filterMap_getObj_filter s d.children xId
      rw [hco]
      have hkills : ∀ a ∈ childObjs s d, a.fileid = xId →
          (fun o => decide (ck ≤ o.index)) a = false := by
        intro a ha hafid
        obtain ⟨cid, hcid, hgc⟩ := List.mem_filterMap.mp ha
        have : a.fileid = cid := (getObj_mem s cid a hgc).2
        have hcidx : cid = xId := by omega
        subst hcidx
        have : a = xo := by
          rw [hgc] at hx
          exact Option.some.inj hx
        subst this
        simpa using by omega
      have := filter_insertionSort_congr
        ((childObjs s d).filter fun o => o.fileid ≠ xId) (childObjs s d)
        (fun o => decide (ck ≤ o.index))
        (by rw [filter_kills (childObjs s d) xId _ hkills])
        (hdist.sublist (List.filter_sublist _))
        hdist
      rw [this]
    · have hin' : xo.inavl = false := by
        cases h : xo.inavl
        · rfl
        · exact absurd h hin
      have : mem_remove_locked s dirId xId = s := by
        simp [mem_remove_locked, hx, hin']
      rw [this]

/-- Claim C4 witness: the index/cookie theorem applied to the concrete
store (root with children "g" and "f"): insert semantics for a fresh
child, counter preservation under removal, iteration contents and order
from cookie 2, and resume stability after removing the index-2 child "g"
from cookie 4. -/
theorem mem_dir_index_cookie_spec_w :
    (∃ co' po', getObj (mem_insert_obj sRen 1 2) 2 = some co' ∧
      getObj (mem_insert_obj sRen 1 2) 1 = some po' ∧
      co'.index = (objAt sRen 1).next_i ∧
      po'.next_i = (objAt sRen 1).next_i + 1 ∧
      po'.children = (objAt sRen 1).children ++ [2] ∧
      (dirIdxBound (objAt sRen 1) (childObjs sRen (objAt sRen 1)) →
        ∀ x ∈ childObjs sRen (objAt sRen 1), x.index < co'.index)) ∧
    (∀ po', getObj (mem_remove_locked sFF 1 2) 1 = some po' →
      po'.next_i = (objAt sFF 1).next_i) ∧
    (({ name := "f", obj := 3, cookie := 4 } : DirEntry) ∈ mem_readdir sFF 1 (some 2) ↔
      ∃ x ∈ childObjs sFF (objAt sFF 1), 2 ≤ x.index ∧
        ({ name := "f", obj := 3, cookie := 4 } : DirEntry) =
          { name := x.m_name, obj := x.fileid, cookie := x.index + 1 }) ∧
    ((mem_readdir sFF 1 (some 2)).Pairwise fun e1 e2 => e1.cookie < e2.cookie) ∧
    (mem_readdir (mem_remove_locked sFF 1 2) 1 (some 4) = mem_readdir sFF 1 (some 4)) :=
  ⟨(mem_dir_index_cookie_spec.1 sRen 1 2 (objAt sRen 1) (objAt sRen 2)
      (by decide) (by decide) (by decide)),
   (fun po' h => mem_dir_index_cookie_spec.2.1 sFF 1 2 (objAt sFF 1) (by decide) po' h),
   (mem_dir_index_cookie_spec.2.2.1 sFF 1 (objAt sFF 1) 2
      { name := "f", obj := 3, cookie := 4 } (by decide)),
   (mem_dir_index_cookie_spec.2.2.2.1 sFF 1 (objAt sFF 1) 2 (by decide) (by decide)),
   (mem_dir_index_cookie_spec.2.2.2.2 sFF 1 2 (objAt sFF 1) (objAt sFF 2) 4
      (by decide) (by decide) (by decide) (by decide) (by decide))⟩

/-! ## Claim C3 -/

theorem getObj_updObj_none (s : Store) (i j : Nat) (f : MemObj → MemObj)
    (hf : ∀ o, (f o).fileid = o.fileid) (hw : getObj s j = none) :
    getObj (updObj s i f) j = none := by
  rw [getObj_updObj s i j f hf, hw]
  rfl

theorem getObj_updObj_pres (s : Store) (i j : Nat) (f : MemObj → MemObj)
    (hfid : ∀ o, (f o).fileid = o.fileid)
    (hname : ∀ o, (f o).m_name = o.m_name)
    (hhandle : ∀ o, (f o).handle = o.handle)
    (w : MemObj) (hw : getObj s j = some w) :
    ∃ w', getObj (updObj s i f) j = some w' ∧ w'.m_name = w.m_name ∧
      w'.fileid = w.fileid ∧ w'.handle = w.handle := by
  rw [getObj_updObj s i j f hfid, hw]
  by_cases h : w.fileid = i <;> simp [h, hfid, hname, hhandle]

theorem getObj_updObj_cases (s : Store) (i j : Nat) (f : MemObj → MemObj)
    (hfid : ∀ o, (f o).fileid = o.fileid) (w : MemObj) (hw : getObj s j = some w) :
    getObj (updObj s i f) j = some (if w.fileid = i then f w else w) := by
  rw [getObj_updObj s i j f hfid, hw]
  rfl

/-- mem_remove_obj_locked changes no object's name, id or handle, and only
shrinks tree id sets. -/
theorem remove_locked_preserves (s : Store) (p c j : Nat) (w : MemObj)
    (hw : getObj s j = some w) :
    ∃ w', getObj (mem_remove_locked s p c) j = some w' ∧ w'.m_name = w.m_name ∧
      w'.fileid = w.fileid ∧ w'.handle = w.handle ∧
      (∀ y ∈ w'.children, y ∈ w.children) := by
  rcases hc : getObj s c with _ | co
  · rw [mem_remove_locked, hc]
    exact ⟨w, hw, rfl, rfl, rfl, fun y hy => hy⟩
  · by_cases hin : co.inavl = true
    · have hrm : mem_remove_locked s p c =
          updObj (updObj s c fun ch => { ch with inavl := false }) p fun pa =>
            { pa with
              dir_numlinks := pa.dir_numlinks - 1
              children := pa.children.filter fun x => x ≠ c } := by
        simp [mem_remove_locked, hc, hin]
      rw [hrm]
      have h1 := getObj_updObj_cases s c j (fun ch => { ch with inavl := false })
        (fun _ => rfl) w hw
      have h2 := getObj_updObj_cases (updObj s c fun ch => { ch with inavl := false }) p j
        (fun pa => { pa with
                     dir_numlinks := pa.dir_numlinks - 1
                     children := pa.children.filter fun x => x ≠ c })
        (fun _ => rfl) _ h1
      refine ⟨_, h2, ?_, ?_, ?_, ?_⟩
      · split_ifs <;> rfl
      · split_ifs <;> simp
      · split_ifs <;> rfl
      · split_ifs <;> intro y hy <;>
          first
          | exact List.mem_of_mem_filter hy
          | exact hy
    · have hin' : co.inavl = false := by
        cases h : co.inavl
        · rfl
        · exact absurd h hin
      rw [mem_remove_locked, hc]
      simp only [hin', if_true]
      exact ⟨w, hw, rfl, rfl, rfl, fun y hy => hy⟩

theorem remove_locked_none (s : Store) (p c j : Nat) (hw : getObj s j = none) :
    getObj (mem_remove_locked s p c) j = none := by
  rcases hc : getObj s c with _ | co
  · rw [mem_remove_locked, hc]
    exact hw
  · by_cases hin : co.inavl = true
    · have hrm : mem_remove_locked s p c =
          updObj (updObj s c fun ch => { ch with inavl := false }) p fun pa =>
            { pa with
              dir_numlinks := pa.dir_numlinks - 1
              children := pa.children.filter fun x => x ≠ c } := by
        simp [mem_remove_locked, hc, hin]
      rw [hrm]
      exact getObj_updObj_none _ p j _ (fun _ => rfl)
        (getObj_updObj_none s c j _ (fun _ => rfl) hw)
    · have hin' : co.inavl = false := by
        cases h : co.inavl
        · rfl
        · exact absurd h hin
      rw [mem_remove_locked, hc]
      simp only [hin', if_true]
      exact hw

theorem insert_obj_preserves (s : Store) (p c j : Nat) (w : MemObj)
    (hw : getObj s j = some w) :
    ∃ w', getObj (mem_insert_obj s p c) j = some w' ∧ w'.m_name = w.m_name ∧
      w'.fileid = w.fileid ∧ w'.handle = w.handle := by
  rcases hp : getObj s p with _ | po
  · rw [mem_insert_obj, hp]
    exact ⟨w, hw, rfl, rfl, rfl⟩
  · rw [mem_insert_obj, hp]
    obtain ⟨w1, hw1, hn1, hf1, hh1⟩ :=
      getObj_updObj_pres s c j (fun ch => { ch with index := po.next_i, inavl := true })
        (fun _ => rfl) (fun _ => rfl) (fun _ => rfl) w hw
    obtain ⟨w2, hw2, hn2, hf2, hh2⟩ :=
      getObj_updObj_pres _ p j
        (fun pa => { pa with
                     next_i := pa.next_i + 1
                     dir_numlinks := pa.dir_numlinks + 1
                     children := pa.children ++ [c] })
        (fun _ => rfl) (fun _ => rfl) (fun _ => rfl) w1 hw1
    exact ⟨w2, hw2, hn2.trans hn1, hf2.trans hf1, hh2.trans hh1⟩

theorem insert_obj_none (s : Store) (p c j : Nat) (hw : getObj s j = none) :
    getObj (mem_insert_obj s p c) j = none := by
  rcases hp : getObj s p with _ | po
  · rw [mem_insert_obj, hp]
    exact hw
  · rw [mem_insert_obj, hp]
    exact getObj_updObj_none _ p j _ (fun _ => rfl)
      (getObj_updObj_none s c j _ (fun _ => rfl) hw)

/-- The rename move chain changes no name, id or handle of any object
other than the renamed one. -/
theorem move_preserves (s : Store) (objId oldDirId newDirId : Nat)
    (new_name : String) (j : Nat) (hj : j ≠ objId) (w : MemObj)
    (hw : getObj s j = some w) :
    ∃ w', getObj (mem_rename_move s objId oldDirId newDirId new_name) j = some w' ∧
      w'.m_name = w.m_name ∧ w'.fileid = w.fileid := by
  obtain ⟨w1, hw1, hn1, hf1, _, _⟩ := remove_locked_preserves s oldDirId objId j w hw
  have hw2 : getObj (updObj (mem_remove_locked s oldDirId objId) objId
      fun o => { o with m_name := new_name }) j = some w1 :=
    (getObj_updObj_ne (mem_remove_locked s oldDirId objId) objId j
      (fun o => { o with m_name := new_name }) (fun _ => rfl) hj).trans hw1
  obtain ⟨w3, hw3, hn3, hf3, _⟩ := insert_obj_preserves _ newDirId objId j w1 hw2
  exact ⟨w3, hw3, hn3.trans hn1, hf3.trans hf1⟩

theorem move_none (s : Store) (objId oldDirId newDirId : Nat)
    (new_name : String) (j : Nat) (hw : getObj s j = none) :
    getObj (mem_rename_move s objId oldDirId newDirId new_name) j = none :=
  insert_obj_none _ newDirId objId j
    (getObj_updObj_none _ objId j _ (fun _ => rfl)
      (remove_locked_none s oldDirId objId j hw))

/-- The heart of claim C3: after the rename move, looking the new name up
in the new directory returns exactly the moved object, which keeps the
wire handle and inode number it had before. -/
theorem rename_move_lookup (s : Store) (objId oldDirId newDirId : Nat)
    (new_name : String) (o1 nd1 : MemObj)
    (ho : getObj s objId = some o1) (hnd : getObj s newDirId = some nd1)
    (hne : objId ≠ newDirId)
    (hdot : new_name ≠ ".") (hddot : new_name ≠ "..")
    (hpref : ∀ x ∈ childObjs s nd1, x.m_name = new_name → x.fileid = objId) :
    mem_int_lookup (mem_rename_move s objId oldDirId newDirId new_name)
      newDirId new_name = .ok objId ∧
    ∃ o', getObj (mem_rename_move s objId oldDirId newDirId new_name) objId = some o' ∧
      o'.handle = o1.handle ∧ o'.fileid = o1.fileid ∧ o'.m_name = new_name ∧
      o'.inavl = true := by
  have hfid1 : o1.fileid = objId := (getObj_mem s objId o1 ho).2
  obtain ⟨o2, ho2, hn2, hf2, hh2, _⟩ := remove_locked_preserves s oldDirId objId objId o1 ho
  obtain ⟨nd2, hnd2, _, hndf2, _, hndch2⟩ :=
    remove_locked_preserves s oldDirId objId newDirId nd1 hnd
  set s2 := mem_remove_locked s oldDirId objId with hs2
  set s3 := updObj s2 objId (fun o => { o with m_name := new_name }) with hs3
  have ho3 : getObj s3 objId = some { o2 with m_name := new_name } :=
    getObj_updObj_self s2 objId _ o2 (fun _ => rfl) ho2
  have hnd3 : getObj s3 newDirId = some nd2 :=
    (getObj_updObj_ne s2 objId newDirId (fun o => { o with m_name := new_name })
      (fun _ => rfl) (fun h => hne h.symm)).trans hnd2
  have hmv : mem_rename_move s objId oldDirId newDirId new_name =
      mem_insert_obj s3 newDirId objId := rfl
  have hins : mem_insert_obj s3 newDirId objId =
      updObj (updObj s3 objId fun ch => { ch with index := nd2.next_i, inavl := true })
        newDirId
        fun pa => { pa with
                    next_i := pa.next_i + 1
                    dir_numlinks := pa.dir_numlinks + 1
                    children := pa.children ++ [objId] } := by
    simp [mem_insert_obj, hnd3]
  have ho3' : getObj (updObj s3 objId fun ch =>
      { ch with index := nd2.next_i, inavl := true }) objId =
      some { o2 with m_name := new_name, index := nd2.next_i, inavl := true } :=
    getObj_updObj_self s3 objId
      (fun ch => { ch with index := nd2.next_i, inavl := true })
      { o2 with m_name := new_name } (fun _ => rfl) ho3
  have hnd3' : getObj (updObj s3 objId fun ch =>
      { ch with index := nd2.next_i, inavl := true }) newDirId = some nd2 :=
    (getObj_updObj_ne s3 objId newDirId
      (fun ch => { ch with index := nd2.next_i, inavl := true })
      (fun _ => rfl) (fun h => hne h.symm)).trans hnd3
  have ho4 : getObj (mem_rename_move s objId oldDirId newDirId new_name) objId =
      some { o2 with m_name := new_name, index := nd2.next_i, inavl := true } := by
    rw [hmv, hins]
    exact (getObj_updObj_ne
      (updObj s3 objId fun ch => { ch with index := nd2.next_i, inavl := true })
      newDirId objId
      (fun pa => { pa with
                   next_i := pa.next_i + 1
                   dir_numlinks := pa.dir_numlinks + 1
                   children := pa.children ++ [objId] })
      (fun _ => rfl) hne).trans ho3'
  have hnd4 : getObj (mem_rename_move s objId oldDirId newDirId new_name) newDirId =
      some { nd2 with
             next_i := nd2.next_i + 1
             dir_numlinks := nd2.dir_numlinks + 1
             children := nd2.children ++ [objId] } := by
    rw [hmv, hins]
    exact getObj_updObj_self _ newDirId _ nd2 (fun _ => rfl) hnd3'
  -- every resolved tree member named new_name is the moved object
  have hD : ∀ y ∈ childObjs (mem_rename_move s objId oldDirId newDirId new_name)
      { nd2 with
        next_i := nd2.next_i + 1
        dir_numlinks := nd2.dir_numlinks + 1
        children := nd2.children ++ [objId] },
      y.m_name = new_name → y.fileid = objId := by
    intro y hy hyname
    obtain ⟨c, hcmem, hgc⟩ := List.mem_filterMap.mp hy
    have hyfid : y.fileid = c := (getObj_mem _ c y hgc).2
    by_cases hcobj : c = objId
    · omega
    · have hcmem' : c ∈ nd2.children := by
        rcases List.mem_append.mp hcmem with h | h
        · exact h
        · simp at h
          exact absurd h hcobj
      rcases hgs : getObj s c with _ | w
      · rw [move_none s objId oldDirId newDirId new_name c hgs] at hgc
        cases hgc
      · obtain ⟨w', hw', hwn, hwf⟩ :=
          move_preserves s objId oldDirId newDirId new_name c hcobj w hgs
        rw [hw'] at hgc
        cases hgc
        have hwmem : w ∈ childObjs s nd1 :=
          List.mem_filterMap.mpr ⟨c, hndch2 c hcmem', hgs⟩
        have := hpref w hwmem (hwn ▸ hyname)
        omega
  refine ⟨?_, ⟨_, ho4, hh2, hf2, rfl, rfl⟩⟩
  simp only [mem_int_lookup, hnd4]
  simp only [hddot, hdot, if_false]
  have hmemo4 : ({ o2 with m_name := new_name, index := nd2.next_i, inavl := true } : MemObj) ∈
      childObjs (mem_rename_move s objId oldDirId newDirId new_name)
        { nd2 with
          next_i := nd2.next_i + 1
          dir_numlinks := nd2.dir_numlinks + 1
          children := nd2.children ++ [objId] } := by
    apply List.mem_filterMap.mpr
    exact ⟨objId, List.mem_append.mpr (Or.inr (List.mem_singleton.mpr rfl)), ho4⟩
  have hfind : (childObjs (mem_rename_move s objId oldDirId newDirId new_name)
      { nd2 with
        next_i := nd2.next_i + 1
        dir_numlinks := nd2.dir_numlinks + 1
        children := nd2.children ++ [objId] }).find?
        (fun o => o.m_name = new_name) |>.isSome := by
    apply List.find?_isSome.mpr
    exact ⟨_, hmemo4, by simp⟩
  obtain ⟨y, hy⟩ := Option.isSome_iff_exists.mp hfind
  rw [hy]
  have hyname : y.m_name = new_name := by
    have := List.find?_some hy
    simpa using this
  have hymem := List.mem_of_find?_eq_some hy
  have hyobj := hD y hymem hyname
  show Except.ok y.fileid = Except.ok objId
  rw [hyobj]

/-- Claim C3: a successful rename (same or different parent directory)
preserves the object's identity and wire handle: looking up the new name
in the destination directory afterwards returns the same inode number, and
the stored handle bytes are exactly the pre-rename (creation-time) bytes —
the handle is never recomputed. -/
theorem mem_rename_preserves_identity_and_handle (s : Store)
    (objId oldDirId newDirId : Nat) (old_name new_name : String)
    (o nd : MemObj)
    (ho : getObj s objId = some o) (hnd : getObj s newDirId = some nd)
    (hne : objId ≠ newDirId)
    (hdot : new_name ≠ ".") (hddot : new_name ≠ "..")
    (hnames : (childObjs s nd).Pairwise fun a b => a.m_name ≠ b.m_name)
    (hWF : WF s)
    (hsucc : (mem_rename s objId oldDirId old_name newDirId new_name).2 = none) :
    mem_int_lookup (mem_rename s objId oldDirId old_name newDirId new_name).1
      newDirId new_name = .ok objId ∧
    ∃ o', getObj (mem_rename s objId oldDirId old_name newDirId new_name).1 objId =
        some o' ∧ o'.handle = o.handle ∧ o'.fileid = o.fileid := by
  have hfid : o.fileid = objId := (getObj_mem s objId o ho).2
  rcases hlk : mem_int_lookup s newDirId new_name with e | dstId
  · -- no destination: plain move; nothing in the tree bears the new name
    have hpref : ∀ x ∈ childObjs s nd, x.m_name = new_name → x.fileid = objId := by
      intro x hx hxname
      rw [mem_int_lookup, hnd] at hlk
      simp only [hddot, hdot, if_false] at hlk
      rcases hfd : (childObjs s nd).find? (fun o => o.m_name = new_name) with _ | z
      · have := List.find?_eq_none.mp hfd x hx
        simp [hxname] at this
      · rw [hfd] at hlk
        cases hlk
    have hmove := rename_move_lookup s objId oldDirId newDirId new_name o nd
      ho hnd hne hdot hddot hpref
    have hrw : mem_rename s objId oldDirId old_name newDirId new_name =
        (mem_rename_move s objId oldDirId newDirId new_name, none) := by
      simp [mem_rename, hlk]
    rw [hrw]
    obtain ⟨o', ho', hh', hf', _, _⟩ := hmove.2
    exact ⟨hmove.1, o', ho', hh', hf'⟩
  · -- a destination exists
    by_cases hsame : dstId = objId
    · -- same source and destination: no state change, lookup already hits
      have hrw : mem_rename s objId oldDirId old_name newDirId new_name = (s, none) := by
        simp [mem_rename, hlk, hsame]
      rw [hrw]
      refine ⟨hsame ▸ hlk, o, ho, rfl, rfl⟩
    · -- the destination is unlinked first, then the move happens
      -- the found destination object
      rw [mem_int_lookup, hnd] at hlk
      simp only [hddot, hdot, if_false] at hlk
      rcases hfd : (childObjs s nd).find? (fun o => o.m_name = new_name) with _ | dst
      · rw [hfd] at hlk
        cases hlk
      · rw [hfd] at hlk
        have hdstId : dst.fileid = dstId := by
          cases hlk
          rfl
        have hdstmem := List.mem_of_find?_eq_some hfd
        have hdstname : dst.m_name = new_name := by
          have := List.find?_some hfd
          simpa using this
        obtain ⟨cd, hcd, hgcd⟩ := List.mem_filterMap.mp hdstmem
        have hcdval : cd = dstId := by
          have := (getObj_mem s cd dst hgcd).2
          omega
        have hgdst : getObj s dstId = some dst := hcdval ▸ hgcd
        have hdstin : dst.inavl = true := by
          have hids := hWF.1
          have hchok := hWF.2.1
          obtain ⟨co, hcomem, hcofid, hcoin⟩ :=
            hchok nd (getObj_mem s newDirId nd hnd).1 cd hcd
          have : co = dst := by
            have hgco : getObj s co.fileid = some co :=
              getObj_of_mem_nodup s co hids hcomem
            rw [hcofid, hcdval] at hgco
            rw [hgco] at hgdst
            exact Option.some.inj hgdst
          rw [← this]
          exact hcoin
        -- walk the success path through the checks and the unlink
        have hlk2 : mem_int_lookup s newDirId new_name = .ok dstId := by
          simp only [mem_int_lookup, hnd]
          simp only [hddot, hdot, if_false]
          rw [hfd]
          show Except.ok dst.fileid = Except.ok dstId
          rw [hdstId]
        simp only [mem_rename, hlk2, hsame, if_false, ho, hgdst] at hsucc ⊢
        by_cases hty : (o.ftype = FType.directory ∧ dst.ftype ≠ FType.directory) ∨
            (o.ftype ≠ FType.directory ∧ dst.ftype = FType.directory)
        · rw [if_pos hty] at hsucc
          cases hsucc
        · rw [if_neg hty] at hsucc ⊢
          by_cases hempty : dst.ftype = FType.directory ∧ dst.dir_numlinks > 2
          · rw [if_pos hempty] at hsucc
            cases hsucc
          · rw [if_neg hempty] at hsucc ⊢
            rcases hul : mem_unlink s newDirId dstId new_name with ⟨s1, e1⟩
            rcases e1 with _ | e1'
            pick_goal 2
            · rw [hul] at hsucc
              simp at hsucc
            try rw [hul] at hsucc
            try rw [hul]
            simp only at hsucc ⊢
            -- the successful unlink is exactly the removal of the destination
            have hs1 : s1 = mem_remove_locked s newDirId dstId := by
              simp only [mem_unlink, hgdst] at hul
              cases hdty : dst.ftype <;> simp only [hdty] at hul
              case directory =>
                have hgt : ¬ dst.dir_numlinks > 2 := fun h => hempty ⟨hdty, h⟩
                rw [if_neg hgt] at hul
                exact (congrArg Prod.fst hul).symm
              case regular =>
                by_cases hfd : dst.fd.openflags ≠ FSAL_O_CLOSED
                · rw [if_pos hfd] at hul
                  have := congrArg Prod.snd hul
                  simp at this
                · rw [if_neg hfd] at hul
                  exact (congrArg Prod.fst hul).symm
              all_goals exact (congrArg Prod.fst hul).symm
            subst hs1
            obtain ⟨o1, ho1, _, hof1, hoh1, _⟩ :=
              remove_locked_preserves s newDirId dstId objId o ho
            obtain ⟨nd1', hnd1', hch1', _, _, _, _⟩ :=
              remove_locked_parent s newDirId dstId dst hgdst hdstin nd hnd
            have hpref1 : ∀ x ∈ childObjs (mem_remove_locked s newDirId dstId) nd1',
                x.m_name = new_name → x.fileid = objId := by
              intro x hx hxname
              obtain ⟨c, hcmem, hgc⟩ := List.mem_filterMap.mp hx
              rw [hch1'] at hcmem
              have hcdst : c ≠ dstId := by simpa using List.of_mem_filter hcmem
              have hcnd : c ∈ nd.children := List.mem_of_mem_filter hcmem
              rcases hgsc : getObj s c with _ | w
              · rw [remove_locked_none s newDirId dstId c hgsc] at hgc
                cases hgc
              · have hwfidc : w.fileid = c := (getObj_mem s c w hgsc).2
                obtain ⟨w', hw', hwn, hwf, _, _⟩ :=
                  remove_locked_preserves s newDirId dstId c w hgsc
                rw [hw'] at hgc
                cases hgc
                have hwmem : w ∈ childObjs s nd :=
                  List.mem_filterMap.mpr ⟨c, hcnd, hgsc⟩
                have hwname : w.m_name = new_name := by rw [← hwn]; exact hxname
                by_cases hwd : w = dst
                · have h1 : w.fileid = dstId := by rw [hwd]; exact hdstId
                  exact absurd (by omega : c = dstId) hcdst
                · have hsymm : Symmetric (fun a b : MemObj => a.m_name ≠ b.m_name) :=
                    fun _ _ h => h.symm
                  have hcontra := hnames.forall hsymm hwmem hdstmem hwd
                  rw [hwname, hdstname] at hcontra
                  exact absurd rfl hcontra
            have hmove := rename_move_lookup (mem_remove_locked s newDirId dstId)
              objId oldDirId newDirId new_name o1 nd1' ho1 hnd1' hne hdot hddot hpref1
            obtain ⟨o', ho', hh', hf', _, _⟩ := hmove.2
            exact ⟨hmove.1, o', ho', hh'.trans hoh1, hf'.trans hof1⟩

/-- Witness: renaming the file "f" (id 2) to "g" inside the root of the
concrete store sF succeeds, the new name looks up to the same inode 2, and
the stored handle bytes are unchanged. -/
theorem mem_rename_preserves_identity_and_handle_w :
    mem_int_lookup (mem_rename sF 2 1 "f" 1 "g").1 1 "g" = .ok 2 ∧
    ∃ o', getObj (mem_rename sF 2 1 "f" 1 "g").1 2 = some o' ∧
      o'.handle = (objAt sF 2).handle ∧ o'.fileid = (objAt sF 2).fileid :=
  mem_rename_preserves_identity_and_handle sF 2 1 1 "f" "g"
    (objAt sF 2) (objAt sF 1) (by decide) (by decide) (by decide)
    (by decide) (by decide) (by decide) (by decide) (by decide)

/-! ## Claim C6 -/

/-- Claim C6 (the code contradicts it): every open-by-handle call without a
caller-supplied state reads the descriptor through the local `hdl` that is
still NULL at that point (`my_fd = &hdl->mh_file.fd` instead of
`&myself->mh_file.fd`), so the operation is undefined for every store and
every object — it never records the flags in the object's global
descriptor. -/
theorem mem_open2_global_fd_crash (cfg : Config) (ctx : Ctx) (t : Nat) (s : Store)
    (i : Nat) (flags : OpenFlags) (cm : CreateMode) (attrs : Option SetAttrs)
    (v : Nat × Nat) :
    mem_open2 cfg ctx t s i none flags cm none attrs v = none := by
  unfold mem_open2
  cases h : getObj s i <;> simp

/-! ## Claim C5 -/

/-- Claim C5 counterexample: the store holds a regular file "g" (id 2,
live) whose stamped timestamps do not match the verifier (7, 7), yet an
open-by-name in exclusive mode naming it succeeds (status none) instead of
failing with EEXIST — the open-by-name path performs no verifier check. -/
theorem mem_open2_name_exclusive_cex :
    (mem_open2 cfgEx {} 0 sRen 1 none FSAL_O_READ .exclusive (some "g") none (7, 7)).map
      (fun r => (r.status, r.newObj, r.permCheck)) = some (none, some 2, some true) ∧
    (getObj sRen 2).map (fun o => (o.ftype, o.inavl, check_verifier_attrlist o.attrs (7, 7))) =
      some (FType.regular, true, false) := by
  refine ⟨by decide, by decide⟩

/-- Claim C5 (amended): the verifier gate lives on the open-by-HANDLE path:
an open-by-handle with a caller-supplied state in an exclusive (non-9P)
create mode, with no share conflict, fails with the EEXIST-equivalent
exactly when the presented verifier does not match the one stamped into
the object's timestamp attributes.  An open-by-name of an existing file in
this module performs no verifier check (see the counterexample). -/
theorem mem_open2_by_handle_exclusive_verifier (cfg : Config) (ctx : Ctx) (t : Nat)
    (s : Store) (i : Nat) (fd0 : Fd) (flags : OpenFlags) (cm : CreateMode)
    (attrs : Option SetAttrs) (v : Nat × Nat) (o : MemObj)
    (ho : getObj s i = some o)
    (hex : cm.isExclusive = true)
    (h9 : cm ≠ .exclusive_9p)
    (hnc : check_share_conflict o.share flags false = false) :
    ∃ r, mem_open2 cfg ctx t s i (some fd0) flags cm none attrs v = some r ∧
      (r.status = some .exist ↔ check_verifier_attrlist o.attrs v = false) := by
  simp only [mem_open2, ho, hnc, Bool.false_eq_true, if_false]
  by_cases hv : check_verifier_attrlist o.attrs v = false
  · rw [if_pos ⟨hex, h9, hv⟩]
    exact ⟨_, rfl, by simp [hv]⟩
  · rw [if_neg fun hcontra => hv hcontra.2.2]
    refine ⟨_, rfl, ?_⟩
    simpa using hv

/-- Claim C5 witness: the amended by-handle theorem applied to the concrete
file "f" with a mismatching verifier. -/
theorem mem_open2_by_handle_exclusive_verifier_w :
    ∃ r, mem_open2 cfgEx {} 0 sF 2 (some {}) FSAL_O_READ .exclusive none none (7, 7) =
        some r ∧
      (r.status = some .exist ↔
        check_verifier_attrlist (objAt sF 2).attrs (7, 7) = false) :=
  mem_open2_by_handle_exclusive_verifier cfgEx {} 0 sF 2 {} FSAL_O_READ .exclusive
    none (7, 7) (objAt sF 2) (by decide) (by decide) (by decide) (by decide)

/-! ## Claim C1 -/

/-- Claim C1 counterexample: in the concrete store sFF the object with
inode 3 is live — indexed under the name "f" in the root directory with its
in-tree flag set — its full path is "/export/f", and its stored handle is
exactly the one computed at creation from that path; yet resolving those
handle bytes returns inode 2, the object created earlier at the same path
and since renamed to "g".  mem_create_handle scans the export object list
in creation order and returns the first byte-equal handle, and handles are
never recomputed on rename, so two live objects can carry identical handle
bytes and the round trip picks the older one. -/
theorem mem_create_handle_roundtrip_cex :
    3 ∈ (objAt sFF 1).children ∧
    (objAt sFF 3).inavl = true ∧
    fullpathF sFF 4 (objAt sFF 3) = some ("/export/f") ∧
    (objAt sFF 3).handle = package_mem_handle cfgEx ("/export/f") ∧
    mem_create_handle cfgEx sFF (objAt sFF 3).handle = .ok 2 ∧
    (2 : Nat) ≠ 3 := by
  decide

/-- Claim C1 amended: resolving a correctly sized handle returns the FIRST
object in creation (export-list) order whose stored bytes equal the
presented ones; the round trip handle→object is the identity precisely on
objects whose handle bytes are unique in the store. -/
theorem mem_create_handle_first_match (cfg : Config) (s : Store) (o : MemObj)
    (hmem : o ∈ s.objs)
    (hlen : o.handle.length = cfg.fhSize)
    (huniq : ∀ o2 ∈ s.objs, o2.handle = o.handle → o2.fileid = o.fileid) :
    mem_create_handle cfg s o.handle = .ok o.fileid := by
  rw [mem_create_handle, if_neg (by simp [hlen])]
  have hfind : (s.objs.find? fun o2 => decide (o2.handle = o.handle)).isSome := by
    apply List.find?_isSome.mpr
    exact ⟨o, hmem, by simp⟩
  obtain ⟨w, hw⟩ := Option.isSome_iff_exists.mp hfind
  rw [hw]
  have hwh : w.handle = o.handle := by
    have := List.find?_some hw
    simpa using this
  have hwmem := List.mem_of_find?_eq_some hw
  show Except.ok w.fileid = Except.ok o.fileid
  rw [huniq w hwmem hwh]

/-- Claim C1 amended witness: in the store sF (root plus one file) the
file's handle bytes are unique, and resolving them returns the file. -/
theorem mem_create_handle_first_match_w :
    mem_create_handle cfgEx sF (objAt sF 2).handle = .ok (objAt sF 2).fileid :=
  mem_create_handle_first_match cfgEx sF (objAt sF 2)
    (by decide) (by decide) (by decide)

/-! ## Claim C9: helper lemmas for the teardown recursion -/

theorem flatten_sublist_forall2 {α : Type} :
    ∀ {l1 l2 : List (List α)}, List.Forall₂ List.Sublist l1 l2 →
      l1.flatten.Sublist l2.flatten := by
  intro l1 l2 h
  induction h with
  | nil => exact List.Sublist.refl _
  | cons ha _ ih =>
    simp only [List.flatten_cons]
    exact List.Sublist.append ha ih

theorem flatten_sublist {α : Type} :
    ∀ {l1 l2 : List (List α)}, l1.Sublist l2 → l1.flatten.Sublist l2.flatten := by
  intro l1 l2 h
  induction h with
  | slnil => exact List.Sublist.refl _
  | cons a _ ih =>
    simp only [List.flatten_cons]
    exact ih.trans (List.sublist_append_right _ _)
  | cons₂ a _ ih =>
    simp only [List.flatten_cons]
    exact List.Sublist.append (List.Sublist.refl _) ih

theorem forall2_map_self {α β : Type} (l : List α) (f g : α → β)
    (R : β → β → Prop) (h : ∀ x ∈ l, R (f x) (g x)) :
    List.Forall₂ R (l.map f) (l.map g) := by
  induction l with
  | nil => exact List.Forall₂.nil
  | cons a t ih =>
    exact List.Forall₂.cons (h a (by simp))
      (ih fun x hx => h x (List.mem_cons_of_mem a hx))

theorem count_flatten_eq (c : Nat) :
    ∀ L : List (List Nat), L.flatten.count c = (L.map fun l => l.count c).sum
  | [] => rfl
  | a :: t => by
    simp only [List.flatten_cons, List.count_append, List.map_cons, List.sum_cons,
      count_flatten_eq c t]

theorem two_mem_sum_le (l : List MemObj) (f : MemObj → Nat) (a b : MemObj)
    (hab : a ≠ b) (ha : a ∈ l) (hb : b ∈ l) : f a + f b ≤ (l.map f).sum := by
  have h1 : l.Perm (a :: l.erase a) := List.perm_cons_erase ha
  have hb1 : b ∈ l.erase a := (List.mem_erase_of_ne fun h => hab h.symm).mpr hb
  have h2 : (l.erase a).Perm (b :: (l.erase a).erase b) := List.perm_cons_erase hb1
  have hs1 : (l.map f).sum = f a + ((l.erase a).map f).sum := by
    have := (h1.map f).sum_eq
    simpa using this
  have hs2 : ((l.erase a).map f).sum = f b + (((l.erase a).erase b).map f).sum := by
    have := (h2.map f).sum_eq
    simpa using this
  omega

theorem countP_flip_one :
    ∀ (l : List MemObj) (c : Nat) (co : MemObj),
      ((l.map fun o => o.fileid).Nodup) → co ∈ l → co.fileid = c →
      co.inavl = true →
      (l.countP fun o => if o.fileid = c then false else o.inavl) + 1 =
        l.countP fun o => o.inavl
  | [], _, _, _, h, _, _ => absurd h (List.not_mem_nil _)
  | a :: t, c, co, hn, hmem, hfid, hin => by
    rw [List.map_cons, List.nodup_cons] at hn
    rw [List.countP_cons, List.countP_cons]
    rcases List.mem_cons.mp hmem with rfl | hmt
    · have hct : ∀ x ∈ t, x.fileid ≠ c := by
        intro x hx hxc
        exact hn.1 (by rw [hfid, ← hxc]; exact List.mem_map_of_mem _ hx)
      have hcongr : (t.countP fun o => if o.fileid = c then false else o.inavl) =
          t.countP fun o => o.inavl :=
        List.countP_congr fun x hx => by simp [hct x hx]
      rw [hcongr]
      simp [hfid, hin]
    · have hac : a.fileid ≠ c := by
        intro h
        exact hn.1 (by rw [h, ← hfid]; exact List.mem_map_of_mem _ hmt)
      have ih := countP_flip_one t c co hn.2 hmt hfid hin
      simp only [hac, if_neg, if_false]
      omega

theorem mem_allChildren (s : Store) (o : MemObj) (c : Nat)
    (ho : o ∈ s.objs) (hc : c ∈ o.children) : c ∈ allChildren s :=
  List.mem_flatten.mpr ⟨o.children, List.mem_map_of_mem _ ho, hc⟩

theorem mem_allChildren_unpack (s : Store) (c : Nat)
    (h : c ∈ allChildren s) : ∃ o ∈ s.objs, c ∈ o.children := by
  obtain ⟨l, hl, hcl⟩ := List.mem_flatten.mp h
  obtain ⟨o, ho, rfl⟩ := List.mem_map.mp hl
  exact ⟨o, ho, hcl⟩

/-- Under the no-double-index invariant a child id determines the directory
that holds it. -/
theorem allChildren_once (s : Store) (hWF : WF s) (o po : MemObj)
    (ho : o ∈ s.objs) (hpo : po ∈ s.objs) (c : Nat)
    (h1 : c ∈ o.children) (h2 : c ∈ po.children) : o = po := by
  by_contra hne
  have hcount : (allChildren s).count c ≤ 1 :=
    List.nodup_iff_count_le_one.mp hWF.2.2 c
  have hsum : (allChildren s).count c =
      (s.objs.map fun o => o.children.count c).sum := by
    rw [allChildren, count_flatten_eq, List.map_map]
    rfl
  have h2le : o.children.count c + po.children.count c ≤
      (s.objs.map fun o => o.children.count c).sum :=
    two_mem_sum_le s.objs (fun o => o.children.count c) o po hne ho hpo
  have hca : o.children.count c ≠ 0 := fun h => (List.count_eq_zero.mp h) h1
  have hcb : po.children.count c ≠ 0 := fun h => (List.count_eq_zero.mp h) h2
  omega

/-- An object whose `inavl` flag is clear is held in no directory's trees. -/
theorem not_child_of_inavl_false (s : Store) (d : Nat) (dobj : MemObj)
    (hWF : WF s) (hd : getObj s d = some dobj) (hin : dobj.inavl = false) :
    d ∉ allChildren s := by
  intro hmem
  obtain ⟨o, ho, hdo⟩ := mem_allChildren_unpack s d hmem
  obtain ⟨co, hco, hcof, hcoin⟩ := hWF.2.1 o ho d hdo
  have hg : getObj s d = some co := by
    have := getObj_of_mem_nodup s co hWF.1 hco
    rwa [hcof] at this
  rw [hd] at hg
  cases hg
  rw [hcoin] at hin
  cases hin

theorem inavlCount_remove_eq (s : Store) (p c : Nat) (co : MemObj)
    (hc : getObj s c = some co) (hin : co.inavl = true) :
    inavlCount (mem_remove_locked s p c) =
      s.objs.countP fun o => if o.fileid = c then false else o.inavl := by
  have hrm : mem_remove_locked s p c =
      updObj (updObj s c fun ch => { ch with inavl := false }) p fun pa =>
        { pa with dir_numlinks := pa.dir_numlinks - 1,
                  children := pa.children.filter fun x => x ≠ c } := by
    simp [mem_remove_locked, hc, hin]
  rw [hrm]
  simp only [inavlCount, updObj, List.countP_map]
  apply List.countP_congr
  intro o _
  simp only [Function.comp]
  split_ifs <;> simp

theorem inavlCount_remove_succ (s : Store) (p c : Nat) (co : MemObj)
    (hids : (s.objs.map fun o => o.fileid).Nodup)
    (hc : getObj s c = some co) (hin : co.inavl = true) :
    inavlCount (mem_remove_locked s p c) + 1 = inavlCount s := by
  rw [inavlCount_remove_eq s p c co hc hin]
  exact countP_flip_one s.objs c co hids (getObj_mem s c co hc).1
    (getObj_mem s c co hc).2 hin

theorem ids_updObj (s : Store) (i : Nat) (f : MemObj → MemObj)
    (hf : ∀ o, (f o).fileid = o.fileid) :
    (updObj s i f).objs.map (fun o => o.fileid) =
      s.objs.map fun o => o.fileid := by
  simp only [updObj, List.map_map]
  apply List.map_congr_left
  intro o _
  simp only [Function.comp]
  split_ifs <;> simp [hf]

theorem allChildren_updObj_sublist (s : Store) (i : Nat) (f : MemObj → MemObj)
    (hf : ∀ o, ((f o).children).Sublist o.children) :
    (allChildren (updObj s i f)).Sublist (allChildren s) := by
  rw [allChildren, allChildren]
  simp only [updObj, List.map_map]
  apply flatten_sublist_forall2
  apply forall2_map_self
  intro o _
  simp only [Function.comp]
  split_ifs
  · exact hf o
  · exact List.Sublist.refl _

/-- mem_remove_obj_locked preserves the store invariants, provided the
removed id is indexed nowhere but in the directory it is removed from. -/
theorem WF_remove (s : Store) (p c : Nat) (hWF : WF s)
    (hpc : ∀ o ∈ s.objs, c ∈ o.children → o.fileid = p) :
    WF (mem_remove_locked s p c) := by
  rcases hc : getObj s c with _ | co
  · rw [mem_remove_locked, hc]
    exact hWF
  · by_cases hin : co.inavl = false
    · simp only [mem_remove_locked, hc]
      rw [if_pos hin]
      exact hWF
    · have hrm : mem_remove_locked s p c =
          updObj (updObj s c fun ch => { ch with inavl := false }) p fun pa =>
            { pa with dir_numlinks := pa.dir_numlinks - 1,
                      children := pa.children.filter fun x => x ≠ c } := by
        simp only [mem_remove_locked, hc]
        rw [if_neg hin]
      rw [hrm]
      refine ⟨?_, ?_, ?_⟩
      · rw [ids_updObj _ p (fun pa => { pa with dir_numlinks := pa.dir_numlinks - 1, children := pa.children.filter fun x => x ≠ c }) (fun _ => rfl)]
        rw [ids_updObj _ c (fun ch => { ch with inavl := false }) (fun _ => rfl)]
        exact hWF.1
      · intro o' ho' x hx
        simp only [updObj, List.mem_map] at ho'
        obtain ⟨o1, ⟨o, ho, rfl⟩, rfl⟩ := ho'
        have hx' : x ∈ o.children ∧ x ≠ c := by
          split_ifs at hx with h1 h2 h3
          · exact ⟨List.mem_of_mem_filter hx, by simpa using List.of_mem_filter hx⟩
          · exact ⟨hx, fun hxc => h2 (hpc o ho (hxc ▸ hx))⟩
          · exact ⟨List.mem_of_mem_filter hx, by simpa using List.of_mem_filter hx⟩
          · exact ⟨hx, fun hxc => h3 (hpc o ho (hxc ▸ hx))⟩
        obtain ⟨co2, hco2, hco2f, hco2in⟩ := hWF.2.1 o ho x hx'.1
        have hne : ¬ co2.fileid = c := by
          rw [hco2f]
          exact hx'.2
        have hmem1 : co2 ∈ s.objs.map fun o1 =>
            if o1.fileid = c then { o1 with inavl := false } else o1 := by
          have h2 : (if co2.fileid = c then { co2 with inavl := false } else co2) ∈
              s.objs.map fun o1 =>
                if o1.fileid = c then { o1 with inavl := false } else o1 :=
            List.mem_map_of_mem _ hco2
          rwa [if_neg hne] at h2
        by_cases h2p : co2.fileid = p
        · refine ⟨{ co2 with dir_numlinks := co2.dir_numlinks - 1, children := co2.children.filter fun y => y ≠ c }, ?_, hco2f, hco2in⟩
          have h3 : (if co2.fileid = p then { co2 with dir_numlinks := co2.dir_numlinks - 1, children := co2.children.filter fun y => y ≠ c } else co2) ∈
              (s.objs.map fun o1 => if o1.fileid = c then { o1 with inavl := false } else o1).map
                fun o1 => if o1.fileid = p then { o1 with dir_numlinks := o1.dir_numlinks - 1, children := o1.children.filter fun y => y ≠ c } else o1 :=
            List.mem_map_of_mem _ hmem1
          rwa [if_pos h2p] at h3
        · refine ⟨co2, ?_, hco2f, hco2in⟩
          have h3 : (if co2.fileid = p then { co2 with dir_numlinks := co2.dir_numlinks - 1, children := co2.children.filter fun y => y ≠ c } else co2) ∈
              (s.objs.map fun o1 => if o1.fileid = c then { o1 with inavl := false } else o1).map
                fun o1 => if o1.fileid = p then { o1 with dir_numlinks := o1.dir_numlinks - 1, children := o1.children.filter fun y => y ≠ c } else o1 :=
            List.mem_map_of_mem _ hmem1
          rwa [if_neg h2p] at h3
      · have hsub : (allChildren (updObj (updObj s c fun ch =>
            { ch with inavl := false }) p fun pa =>
            { pa with dir_numlinks := pa.dir_numlinks - 1,
                      children := pa.children.filter fun x => x ≠ c })).Sublist
            (allChildren s) := by
          refine (allChildren_updObj_sublist _ _ _ ?_).trans
            (allChildren_updObj_sublist _ _ _ ?_)
          · intro o
            exact List.filter_sublist _
          · intro o
            exact List.Sublist.refl _
        exact List.Nodup.sublist hsub hWF.2.2

/-- gsh_free of a de-indexed object preserves the store invariants. -/
theorem WF_freeObj (s : Store) (i : Nat) (hWF : WF s)
    (hni : i ∉ allChildren s) : WF (freeObj s i) := by
  refine ⟨?_, ?_, ?_⟩
  · exact List.Nodup.sublist (List.Sublist.map _ (List.filter_sublist _)) hWF.1
  · intro o ho x hx
    have ho' : o ∈ s.objs := List.mem_of_mem_filter ho
    obtain ⟨co2, hco2, hco2f, hco2in⟩ := hWF.2.1 o ho' x hx
    have hxne : x ≠ i := fun hxi =>
      hni (hxi ▸ mem_allChildren s o x ho' hx)
    refine ⟨co2, ?_, hco2f, hco2in⟩
    apply List.mem_filter.mpr
    refine ⟨hco2, ?_⟩
    simp [hco2f, hxne]
  · have hsub : (allChildren (freeObj s i)).Sublist (allChildren s) := by
      rw [allChildren, allChildren]
      exact flatten_sublist (List.Sublist.map _ (List.filter_sublist _))
    exact List.Nodup.sublist hsub hWF.2.2

theorem Evo_refl (F : List Nat) (s : Store) : Evo F s s :=
  ⟨le_refl _, fun _ h => h, fun _ h => h,
    fun _ co co' h1 h2 hf => by
      rw [h1] at h2
      cases h2
      exact hf,
    fun _ _ => rfl⟩

theorem Evo_trans (F : List Nat) (s r t : Store)
    (h1 : Evo F s r) (h2 : Evo F r t) : Evo F s t := by
  obtain ⟨a1, b1, c1, d1, e1⟩ := h1
  obtain ⟨a2, b2, c2, d2, e2⟩ := h2
  refine ⟨le_trans a2 a1, fun x hx => b1 x (b2 x hx),
    fun j hj => c2 j (c1 j hj), ?_, fun j hj => (e2 j hj).trans (e1 j hj)⟩
  intro j co co' hs ht hf
  rcases hr : getObj r j with _ | cm
  · rw [c2 j hr] at ht
    cases ht
  · exact d2 j cm co' hr ht (d1 j co cm hs hr hf)

theorem Evo_mono (F G : List Nat) (s r : Store)
    (hFG : ∀ x ∈ F, x ∈ G) (h : Evo F s r) : Evo G s r :=
  ⟨h.1, h.2.1, h.2.2.1, h.2.2.2.1,
    fun j hj => h.2.2.2.2 j fun hjF => hj (hFG j hjF)⟩

theorem Evo_remove (F : List Nat) (s : Store) (p c : Nat)
    (hp : p ∈ F) (hc : c ∈ F) : Evo F s (mem_remove_locked s p c) := by
  rcases hco : getObj s c with _ | co
  · rw [mem_remove_locked, hco]
    exact Evo_refl F s
  · by_cases hin : co.inavl = false
    · simp only [mem_remove_locked, hco]
      rw [if_pos hin]
      exact Evo_refl F s
    · have hrm : mem_remove_locked s p c =
          updObj (updObj s c fun ch => { ch with inavl := false }) p fun pa =>
            { pa with dir_numlinks := pa.dir_numlinks - 1,
                      children := pa.children.filter fun x => x ≠ c } := by
        simp only [mem_remove_locked, hco]
        rw [if_neg hin]
      refine ⟨?_, ?_, ?_, ?_, ?_⟩
      · rw [hrm, inavlCount, inavlCount]
        simp only [updObj, List.countP_map]
        apply List.countP_mono_left
        intro o _
        simp only [Function.comp]
        split_ifs <;> simp
      · intro x hx
        rw [hrm] at hx
        obtain ⟨o1, ho1, hxo1⟩ := mem_allChildren_unpack _ x hx
        simp only [updObj, List.mem_map] at ho1
        obtain ⟨o2, ⟨o, ho, rfl⟩, rfl⟩ := ho1
        apply mem_allChildren s o x ho
        revert hxo1
        split_ifs <;> intro hxo1 <;>
          first
            | exact List.mem_of_mem_filter hxo1
            | exact hxo1
      · intro j hj
        exact remove_locked_none s p c j hj
      · intro j co1 co1' hs ht hf
        rw [hrm] at ht
        have h1 := getObj_updObj_cases s c j
          (fun ch => { ch with inavl := false }) (fun _ => rfl) co1 hs
        have h2 := getObj_updObj_cases _ p j
          (fun pa => { pa with dir_numlinks := pa.dir_numlinks - 1, children := pa.children.filter fun x => x ≠ c })
          (fun _ => rfl) _ h1
        rw [ht] at h2
        cases h2
        split_ifs <;> simp_all
      · intro j hj
        have hjp : j ≠ p := fun h => hj (h ▸ hp)
        have hjc : j ≠ c := fun h => hj (h ▸ hc)
        rw [hrm,
          getObj_updObj_ne _ p j
            (fun pa => { pa with dir_numlinks := pa.dir_numlinks - 1, children := pa.children.filter fun x => x ≠ c })
            (fun _ => rfl) hjp,
          getObj_updObj_ne s c j (fun ch => { ch with inavl := false })
            (fun _ => rfl) hjc]

theorem Evo_freeObj (F : List Nat) (s : Store) (i : Nat)
    (hi : i ∈ F) : Evo F s (freeObj s i) := by
  refine ⟨?_, ?_, ?_, ?_, ?_⟩
  · exact List.Sublist.countP_le _ (List.filter_sublist _)
  · intro x hx
    obtain ⟨o, ho, hxo⟩ := mem_allChildren_unpack _ x hx
    exact mem_allChildren s o x (List.mem_of_mem_filter ho) hxo
  · intro j hj
    by_cases hji : j = i
    · rw [hji]
      exact getObj_freeObj_self s i
    · rw [getObj_freeObj_ne s i j hji]
      exact hj
  · intro j co co' hs ht hf
    by_cases hji : j = i
    · rw [hji, getObj_freeObj_self s i] at ht
      cases ht
    · rw [getObj_freeObj_ne s i j hji, hs] at ht
      cases ht
      exact hf
  · intro j hj
    exact getObj_freeObj_ne s i j fun h => hj (h ▸ hi)

theorem Evo_dead_pres (F : List Nat) (a b : Store) (j : Nat) (h : Evo F a b)
    (hd : getObj a j = none ∨ ∃ w, getObj a j = some w ∧ w.inavl = false) :
    getObj b j = none ∨ ∃ w, getObj b j = some w ∧ w.inavl = false := by
  rcases hd with hn | ⟨w, hw, hwf⟩
  · exact Or.inl (h.2.2.1 j hn)
  · rcases hb : getObj b j with _ | w'
    · exact Or.inl rfl
    · exact Or.inr ⟨w', rfl, h.2.2.2.1 j w w' hw hb hwf⟩

/-- Removing a child from directory `p` (with `p` itself not the child)
only filters the child out of `p`'s id trees. -/
theorem remove_locked_parent_eq (s : Store) (p c : Nat) (co : MemObj)
    (hc : getObj s c = some co) (hin : co.inavl = true) (hpc : p ≠ c)
    (po : MemObj) (hp : getObj s p = some po) :
    getObj (mem_remove_locked s p c) p =
      some { po with dir_numlinks := po.dir_numlinks - 1,
                     children := po.children.filter fun x => x ≠ c } := by
  have hrm : mem_remove_locked s p c =
      updObj (updObj s c fun ch => { ch with inavl := false }) p fun pa =>
        { pa with dir_numlinks := pa.dir_numlinks - 1,
                  children := pa.children.filter fun x => x ≠ c } := by
    simp [mem_remove_locked, hc, hin]
  rw [hrm]
  have h1 : getObj (updObj s c fun ch => { ch with inavl := false }) p = some po := by
    rw [getObj_updObj_ne s c p (fun ch => { ch with inavl := false }) (fun _ => rfl) hpc]
    exact hp
  exact getObj_updObj_self _ p
    (fun pa => { pa with dir_numlinks := pa.dir_numlinks - 1, children := pa.children.filter fun x => x ≠ c })
    po (fun _ => rfl) h1

theorem foldl_pick_some :
    ∀ (l : List MemObj) (m0 : MemObj),
      ∃ m, l.foldl (fun acc o =>
          match acc with
          | none => some o
          | some m => if o.m_name < m.m_name then some o else some m)
        (some m0) = some m ∧ (m = m0 ∨ m ∈ l)
  | [], m0 => ⟨m0, rfl, Or.inl rfl⟩
  | a :: t, m0 => by
    simp only [List.foldl_cons]
    by_cases h : a.m_name < m0.m_name
    · obtain ⟨m, hm, hmem⟩ := foldl_pick_some t a
      refine ⟨m, ?_, ?_⟩
      · show List.foldl _ (if a.m_name < m0.m_name then some a else some m0) t =
          some m
        rw [if_pos h]
        exact hm
      · rcases hmem with rfl | h1
        · exact Or.inr (List.mem_cons_self _ _)
        · exact Or.inr (List.mem_cons_of_mem a h1)
    · obtain ⟨m, hm, hmem⟩ := foldl_pick_some t m0
      refine ⟨m, ?_, ?_⟩
      · show List.foldl _ (if a.m_name < m0.m_name then some a else some m0) t =
          some m
        rw [if_neg h]
        exact hm
      · rcases hmem with rfl | h1
        · exact Or.inl rfl
        · exact Or.inr (List.mem_cons_of_mem a h1)

theorem firstChild_isSome (s : Store) (dobj : MemObj)
    (hne : childObjs s dobj ≠ []) : (firstChildByName s dobj).isSome := by
  rcases hl : childObjs s dobj with _ | ⟨a, t⟩
  · exact absurd hl hne
  · rw [firstChildByName, hl]
    simp only [List.foldl_cons]
    obtain ⟨m, hm, _⟩ := foldl_pick_some t a
    have hm' : List.foldl (fun acc o =>
        match acc with
        | none => some o
        | some m => if o.m_name < m.m_name then some o else some m)
        (some a) t = some m := hm
    rw [show (List.foldl (fun acc o =>
        match acc with
        | none => some o
        | some m => if o.m_name < m.m_name then some o else some m)
        ((fun acc o =>
          match acc with
          | none => some o
          | some m => if o.m_name < m.m_name then some o else some m) none a) t) =
        some m from hm']
    rfl

theorem firstChild_some_mem (s : Store) (dobj : MemObj) (c : Nat)
    (h : firstChildByName s dobj = some c) :
    ∃ m ∈ childObjs s dobj, m.fileid = c := by
  rcases hl : childObjs s dobj with _ | ⟨a, t⟩
  · rw [firstChildByName, hl] at h
    cases h
  · rw [firstChildByName, hl] at h
    simp only [List.foldl_cons] at h
    obtain ⟨m, hm, hmem⟩ := foldl_pick_some t a
    rw [hm] at h
    have hmf : m.fileid = c := by
      simpa using h
    refine ⟨m, ?_, hmf⟩
    rcases hmem with rfl | h1
    · exact List.mem_cons_self _ _
    · exact List.mem_cons_of_mem a h1

theorem firstChild_child (s : Store) (d : Nat) (dobj : MemObj) (c : Nat)
    (hd : getObj s d = some dobj) (h : firstChildByName s dobj = some c) :
    c ∈ dobj.children := by
  obtain ⟨m, hm, hmf⟩ := firstChild_some_mem s dobj c h
  obtain ⟨cid, hcid, hg⟩ := List.mem_filterMap.mp hm
  have hcf := (getObj_mem s cid m hg).2
  have : cid = c := by
    rw [← hcf, hmf]
  exact this ▸ hcid

theorem childObjs_ne_nil (s : Store) (dobj : MemObj) (hWF : WF s)
    (hmem : dobj ∈ s.objs) (hne : dobj.children ≠ []) :
    childObjs s dobj ≠ [] := by
  rcases hch : dobj.children with _ | ⟨c, t⟩
  · exact absurd hch hne
  · have hcmem : c ∈ dobj.children := by
      rw [hch]
      exact List.mem_cons_self _ _
    obtain ⟨co, hco, hcof, _⟩ := hWF.2.1 dobj hmem c hcmem
    have hg : getObj s c = some co := by
      have := getObj_of_mem_nodup s co hWF.1 hco
      rwa [hcof] at this
    have : co ∈ childObjs s dobj :=
      List.mem_filterMap.mpr ⟨c, hcmem, hg⟩
    exact List.ne_nil_of_mem this

/-- The teardown recursion: with sufficient fuel, releaseF/cleanDirF
preserve well-formedness, only shrink the store (Evo frame), free the
released object, and leave every former child of a torn-down directory
either freed or de-indexed. -/
theorem release_clean_main :
    ∀ fuel : Nat,
      (∀ s i, WF s → 2 * inavlCount s + 1 ≤ fuel →
        WF (releaseF fuel s i) ∧
        Evo (i :: allChildren s) s (releaseF fuel s i) ∧
        (∀ o, getObj s i = some o → o.parent ≠ none → o.inavl = false →
          getObj (releaseF fuel s i) i = none ∧
          (o.ftype = FType.directory → ∀ c ∈ o.children,
            getObj (releaseF fuel s i) c = none ∨
            ∃ co, getObj (releaseF fuel s i) c = some co ∧ co.inavl = false))) ∧
      (∀ s d dobj, WF s → 2 * inavlCount s ≤ fuel → getObj s d = some dobj →
        dobj.inavl = false →
        WF (cleanDirF fuel s d) ∧
        Evo (d :: allChildren s) s (cleanDirF fuel s d) ∧
        (∀ c ∈ dobj.children,
          getObj (cleanDirF fuel s d) c = none ∨
          ∃ co, getObj (cleanDirF fuel s d) c = some co ∧ co.inavl = false)) := by
  intro fuel
  induction fuel with
  | zero =>
    constructor
    · intro s i _ hb
      omega
    · intro s d dobj hWF hb hd hdin
      simp only [cleanDirF]
      refine ⟨hWF, Evo_refl _ _, ?_⟩
      intro c hc
      exfalso
      obtain ⟨co, hco, _, hcoin⟩ := hWF.2.1 dobj (getObj_mem s d dobj hd).1 c hc
      have hpos : 0 < inavlCount s := by
        rw [inavlCount]
        exact List.countP_pos.mpr ⟨co, hco, by simp [hcoin]⟩
      omega
  | succ n ih =>
    constructor
    · -- releaseF at fuel n+1
      intro s i hWF hb
      rcases ho : getObj s i with _ | o
      · have hre : releaseF (n + 1) s i = s := by
          simp only [releaseF, ho]
        rw [hre]
        refine ⟨hWF, Evo_refl _ _, ?_⟩
        intro o hoo
        cases hoo
      · by_cases hg : o.parent = none ∨ o.inavl = true
        · have hre : releaseF (n + 1) s i = s := by
            simp only [releaseF, ho]
            rw [if_pos hg]
          rw [hre]
          refine ⟨hWF, Evo_refl _ _, ?_⟩
          intro o2 ho2 hp2 hin2
          cases ho2
          rcases hg with hg | hg
          · exact absurd hg hp2
          · rw [hg] at hin2
            cases hin2
        · have hpne : o.parent ≠ none := fun h => hg (Or.inl h)
          have hinf : o.inavl = false := by
            rcases hbool : o.inavl with _ | _
            · rfl
            · exact absurd (Or.inr hbool) hg
          have hni : i ∉ allChildren s :=
            not_child_of_inavl_false s i o hWF ho hinf
          by_cases hdir : o.ftype = FType.directory
          · have hre : releaseF (n + 1) s i = freeObj (cleanDirF n s i) i := by
              simp only [releaseF, ho]
              rw [if_neg hg, if_pos hdir]
            have hcb : 2 * inavlCount s ≤ n := by omega
            obtain ⟨hWF1, hEvo1, hconc1⟩ := ih.2 s i o hWF hcb ho hinf
            have hni1 : i ∉ allChildren (cleanDirF n s i) := fun h =>
              hni (hEvo1.2.1 i h)
            rw [hre]
            refine ⟨WF_freeObj _ i hWF1 hni1, ?_, ?_⟩
            · exact Evo_trans _ _ _ _ hEvo1
                (Evo_freeObj _ _ i (List.mem_cons_self _ _))
            · intro o2 ho2 _ _
              cases ho2
              refine ⟨getObj_freeObj_self _ i, ?_⟩
              intro _ c hc
              have hcne : c ≠ i := fun h =>
                hni (h ▸ mem_allChildren s o c (getObj_mem s i o ho).1 hc)
              rcases hconc1 c hc with h1 | ⟨co2, h1, h2⟩
              · left
                rw [getObj_freeObj_ne _ i c hcne]
                exact h1
              · right
                refine ⟨co2, ?_, h2⟩
                rw [getObj_freeObj_ne _ i c hcne]
                exact h1
          · have hre : releaseF (n + 1) s i = freeObj s i := by
              simp only [releaseF, ho]
              rw [if_neg hg, if_neg hdir]
            rw [hre]
            refine ⟨WF_freeObj s i hWF hni,
              Evo_freeObj _ s i (List.mem_cons_self _ _), ?_⟩
            intro o2 ho2 _ _
            cases ho2
            exact ⟨getObj_freeObj_self s i, fun hd2 => absurd hd2 hdir⟩
    · -- cleanDirF at fuel n+1
      intro s d dobj hWF hb hd hdin
      have hdobjmem := (getObj_mem s d dobj hd).1
      rcases hfc : firstChildByName s dobj with _ | c
      · have hre : cleanDirF (n + 1) s d = s := by
          simp only [cleanDirF, hd, hfc]
        rw [hre]
        refine ⟨hWF, Evo_refl _ _, ?_⟩
        intro c hc
        exfalso
        have hne : childObjs s dobj ≠ [] :=
          childObjs_ne_nil s dobj hWF hdobjmem (List.ne_nil_of_mem hc)
        have hsome := firstChild_isSome s dobj hne
        rw [hfc] at hsome
        simp at hsome
      · have hcch : c ∈ dobj.children := firstChild_child s d dobj c hd hfc
        obtain ⟨co, hcoo, hcof, hcoin⟩ := hWF.2.1 dobj hdobjmem c hcch
        have hgc : getObj s c = some co := by
          have := getObj_of_mem_nodup s co hWF.1 hcoo
          rwa [hcof] at this
        have hcd : c ≠ d := by
          intro h
          rw [h, hd] at hgc
          cases hgc
          rw [hcoin] at hdin
          cases hdin
        have hcA : c ∈ allChildren s := mem_allChildren s dobj c hdobjmem hcch
        have hdA : d ∉ allChildren s :=
          not_child_of_inavl_false s d dobj hWF hd hdin
        have hre : cleanDirF (n + 1) s d =
            cleanDirF n (releaseF n (mem_remove_locked s d c) c) d := by
          simp only [cleanDirF, hd, hfc]
        have hpc : ∀ o ∈ s.objs, c ∈ o.children → o.fileid = d := by
          intro o hom hco2
          have heq := allChildren_once s hWF o dobj hom hdobjmem c hco2 hcch
          rw [heq]
          exact (getObj_mem s d dobj hd).2
        have hWF1 : WF (mem_remove_locked s d c) := WF_remove s d c hWF hpc
        have hcnt1 : inavlCount (mem_remove_locked s d c) + 1 = inavlCount s :=
          inavlCount_remove_succ s d c co hWF.1 hgc hcoin
        have hEvo1 : Evo (d :: allChildren s) s (mem_remove_locked s d c) :=
          Evo_remove _ s d c (List.mem_cons_self _ _)
            (List.mem_cons_of_mem _ hcA)
        have hrb : 2 * inavlCount (mem_remove_locked s d c) + 1 ≤ n := by omega
        obtain ⟨hWF2, hEvo2, -⟩ := ih.1 (mem_remove_locked s d c) c hWF1 hrb
        have hEvo2' : Evo (d :: allChildren s) (mem_remove_locked s d c)
            (releaseF n (mem_remove_locked s d c) c) := by
          apply Evo_mono _ _ _ _ _ hEvo2
          intro x hx
          rcases List.mem_cons.mp hx with rfl | hx1
          · exact List.mem_cons_of_mem _ hcA
          · exact List.mem_cons_of_mem _ (hEvo1.2.1 x hx1)
        have hdns1 : d ∉ allChildren (mem_remove_locked s d c) := fun h =>
          hdA (hEvo1.2.1 d h)
        have hd1 : getObj (mem_remove_locked s d c) d =
            some { dobj with dir_numlinks := dobj.dir_numlinks - 1, children := dobj.children.filter fun x => x ≠ c } :=
          remove_locked_parent_eq s d c co hgc hcoin (fun h => hcd h.symm) dobj hd
        have hd2 : getObj (releaseF n (mem_remove_locked s d c) c) d =
            some { dobj with dir_numlinks := dobj.dir_numlinks - 1, children := dobj.children.filter fun x => x ≠ c } := by
          rw [hEvo2.2.2.2.2 d ?_]
          · exact hd1
          · intro hmem
            rcases List.mem_cons.mp hmem with h | h
            · exact hcd h.symm
            · exact hdns1 h
        have hcb2 : 2 * inavlCount (releaseF n (mem_remove_locked s d c) c) ≤ n := by
          have hle := hEvo2.1
          omega
        obtain ⟨hWF3, hEvo3, hconc3⟩ := ih.2
          (releaseF n (mem_remove_locked s d c) c) d
          { dobj with dir_numlinks := dobj.dir_numlinks - 1, children := dobj.children.filter fun x => x ≠ c }
          hWF2 hcb2 hd2 hdin
        have hEvo3' : Evo (d :: allChildren s)
            (releaseF n (mem_remove_locked s d c) c)
            (cleanDirF n (releaseF n (mem_remove_locked s d c) c) d) := by
          apply Evo_mono _ _ _ _ _ hEvo3
          intro x hx
          rcases List.mem_cons.mp hx with rfl | hx1
          · exact List.mem_cons_self _ _
          · exact List.mem_cons_of_mem _
              (hEvo1.2.1 x (hEvo2'.2.1 x hx1))
        rw [hre]
        refine ⟨hWF3, ?_, ?_⟩
        · exact Evo_trans _ _ _ _ hEvo1 (Evo_trans _ _ _ _ hEvo2' hEvo3')
        · intro c' hc'
          by_cases hc'c : c' = c
          · subst hc'c
            obtain ⟨co1, hco1, hco1f, -⟩ :=
              remove_locked_child s d c' co hgc
            have hdead1 : getObj (mem_remove_locked s d c') c' = none ∨
                ∃ w, getObj (mem_remove_locked s d c') c' = some w ∧
                  w.inavl = false := Or.inr ⟨co1, hco1, hco1f⟩
            exact Evo_dead_pres _ _ _ c' hEvo3'
              (Evo_dead_pres _ _ _ c' hEvo2' hdead1)
          · have hc'2 : c' ∈ dobj.children.filter fun x => x ≠ c := by
              apply List.mem_filter.mpr
              exact ⟨hc', by simpa using hc'c⟩
            exact hconc3 c' hc'2

/-- Claim C9: release of the export root (no parent) or of an object
still indexed in a parent is a no-op — the store is unchanged, so the
object persists and remains addressable; only on a removed, non-root
object does release tear down: the object itself is freed from the arena
(its handle no longer resolves), and if it is a directory every remaining
child has been removed and released — after teardown each former child is
either gone from the store or at least no longer indexed anywhere. -/
theorem mem_release_spec (s : Store) (i : Nat) (o : MemObj)
    (hWF : WF s) (ho : getObj s i = some o) :
    ((o.parent = none ∨ o.inavl = true) → mem_release s i = s) ∧
    (o.parent ≠ none → o.inavl = false →
      getObj (mem_release s i) i = none ∧
      (o.ftype = FType.directory → ∀ c ∈ o.children,
        getObj (mem_release s i) c = none ∨
        ∃ co, getObj (mem_release s i) c = some co ∧ co.inavl = false)) := by
  constructor
  · intro hg
    rw [mem_release]
    simp only [releaseF, ho]
    rw [if_pos hg]
  · intro hp hin
    have hmain := (release_clean_main (2 * inavlCount s + 1)).1 s i hWF (le_refl _)
    exact hmain.2.2 o ho hp hin

/-- Witness: in the store obtained from sF by unlinking the file "f", the
file object (inode 2) still has a parent pointer but is de-indexed, so the
claim theorem applies to it; its no-op arm and its teardown arm are both
instantiated at that concrete store. -/
theorem mem_release_spec_w :
    (((objAt (mem_unlink sF 1 2 "f").1 2).parent = none ∨
        (objAt (mem_unlink sF 1 2 "f").1 2).inavl = true) →
      mem_release (mem_unlink sF 1 2 "f").1 2 = (mem_unlink sF 1 2 "f").1) ∧
    ((objAt (mem_unlink sF 1 2 "f").1 2).parent ≠ none →
      (objAt (mem_unlink sF 1 2 "f").1 2).inavl = false →
      getObj (mem_release (mem_unlink sF 1 2 "f").1 2) 2 = none ∧
      ((objAt (mem_unlink sF 1 2 "f").1 2).ftype = FType.directory →
        ∀ c ∈ (objAt (mem_unlink sF 1 2 "f").1 2).children,
          getObj (mem_release (mem_unlink sF 1 2 "f").1 2) c = none ∨
          ∃ co, getObj (mem_release (mem_unlink sF 1 2 "f").1 2) c = some co ∧
            co.inavl = false)) :=
  mem_release_spec (mem_unlink sF 1 2 "f").1 2
    (objAt (mem_unlink sF 1 2 "f").1 2) (by decide) (by decide)

end MemFSAL
